import Mathlib

/-!
# A shallow embedding of `my_malloc.c`

The allocator of `src/src/my_malloc.c` keeps its block headers inside the very
memory it hands out, so the embedding works on a byte-addressed memory:

* `Mem` is a map from byte addresses to byte values; a `size_t` or a pointer is
  eight little-endian bytes, an `int` is four (LP64, the platform of `sbrk`).
* A `Block` header occupies `sizeof_Block = 24` bytes: `size` at offset 0,
  `is_free` at offset 8 (followed by four bytes of padding), `next` at
  offset 16.
* Pointers are natural numbers and `NULL` is `0`.
* `size_t` arithmetic is taken modulo `2 ^ 64`. The pointer `new_block` of
  `split_block`, which adds a requested size to an address, wraps at `2 ^ 64`
  as well; the other pointers (`block + 1`, `ptr - 1`) are formed inside a
  block and are not reduced.
* Memory accesses do not fault: a store or a `memset` beyond the break is an
  update of `Mem` like any other.
* The array `free_heap[0 .. heap_size)` is a list of block addresses.
* The lock and the logging switch have no effect on results and are left out.
* Loops carry a fuel argument that the callers set to a bound on the number of
  iterations.
-/

namespace MyMalloc

/-! ## Memory -/

/-- Byte-addressed memory. -/
abbrev Mem := Nat → Nat

/-- Word size of `size_t`: arithmetic on sizes is modulo `SIZE_MOD`. -/
def SIZE_MOD : Nat := 2 ^ 64

/-- Little-endian read of `k` bytes at address `a`. -/
def load (m : Mem) (a : Nat) : Nat → Nat
  | 0 => 0
  | k + 1 => m a % 256 + 256 * load m (a + 1) k

/-- Little-endian write of the `k` low bytes of `v` at address `a`. -/
def store (m : Mem) (a k v : Nat) : Mem :=
  fun x => if a ≤ x ∧ x < a + k then (v / 256 ^ (x - a)) % 256 else m x

/-- The library call `memset(dst, c, n)`. -/
def memset (m : Mem) (dst c n : Nat) : Mem :=
  fun x => if dst ≤ x ∧ x < dst + n then c % 256 else m x

/-- The library call `memcpy(dst, src, n)`. -/
def memcpy (m : Mem) (dst src n : Nat) : Mem :=
  fun x => if dst ≤ x ∧ x < dst + n then m (src + (x - dst)) else m x

/-! ## Block headers -/

/-- The constant `MIN_BLOCK_SIZE`. -/
def MIN_BLOCK_SIZE : Nat := 16

/-- The value of `sizeof(Block)`. -/
def sizeof_Block : Nat := 24

/-- The macro `ALIGN8(size)`, that is `((size) + 7) & ~7` on `size_t`. -/
def ALIGN8 (size : Nat) : Nat := ((size + 7) % SIZE_MOD) / 8 * 8

/-- Field `block->size`. -/
def get_size (m : Mem) (block : Nat) : Nat := load m block 8

/-- Field `block->is_free`, as the truth value C gives it. -/
def get_is_free (m : Mem) (block : Nat) : Bool := load m (block + 8) 4 != 0

/-- Field `block->next`. -/
def get_next (m : Mem) (block : Nat) : Nat := load m (block + 16) 8

/-- Assignment `block->size = v`. -/
def set_size (m : Mem) (block v : Nat) : Mem := store m block 8 v

/-- Assignment `block->is_free = v`. -/
def set_is_free (m : Mem) (block v : Nat) : Mem := store m (block + 8) 4 v

/-- Assignment `block->next = v`. -/
def set_next (m : Mem) (block v : Nat) : Mem := store m (block + 16) 8 v

/-! ## Allocator state -/

/-- The globals of `my_malloc.c` together with the memory and the program
break that `sbrk` moves. `os_limit` is the highest break the operating system
grants. -/
structure State where
  mem : Mem
  brk : Nat
  os_limit : Nat
  memory_pool : Nat
  memory_pool_size : Nat
  free_heap : List Nat

/-- The system call `sbrk(incr)`: `incr` is converted to `intptr_t`, so a value
of `2 ^ 63` or more lowers the break. The result is the previous break, or
`none` for `(void*)-1`. -/
def sbrk (s : State) (incr : Nat) : Option (Nat × State) :=
  if incr < 2 ^ 63 then
    if s.brk + incr ≤ s.os_limit then some (s.brk, { s with brk := s.brk + incr })
    else none
  else
    if SIZE_MOD ≤ s.brk + incr then some (s.brk, { s with brk := s.brk + incr - SIZE_MOD })
    else none

/-! ## The min-heap of free blocks -/

/-- Exchange of `free_heap[i]` and `free_heap[j]`. -/
def swap (h : List Nat) (i j : Nat) : List Nat :=
  (h.set i (h.getD j 0)).set j (h.getD i 0)

/-- Loop of `heapify_up`, one iteration per unit of fuel. -/
def heapify_up (m : Mem) : Nat → List Nat → Nat → List Nat
  | 0, h, _ => h
  | fuel + 1, h, index =>
    let parent := (index - 1) / 2
    if 0 < index ∧ get_size m (h.getD index 0) < get_size m (h.getD parent 0) then
      heapify_up m fuel (swap h index parent) parent
    else h

/-- Function `heapify_down`, one call per unit of fuel. -/
def heapify_down (m : Mem) : Nat → List Nat → Nat → List Nat
  | 0, h, _ => h
  | fuel + 1, h, index =>
    let left := 2 * index + 1
    let right := 2 * index + 2
    let smallest := index
    let smallest :=
      if left < h.length ∧ get_size m (h.getD left 0) < get_size m (h.getD smallest 0)
      then left else smallest
    let smallest :=
      if right < h.length ∧ get_size m (h.getD right 0) < get_size m (h.getD smallest 0)
      then right else smallest
    if smallest ≠ index then heapify_down m fuel (swap h index smallest) smallest
    else h

/-- Function `heap_push`. -/
def heap_push (s : State) (block : Nat) : State :=
  let h := s.free_heap ++ [block]
  { s with free_heap := heapify_up s.mem h.length h s.free_heap.length }

/-- Function `heap_pop`: the removed root (`NULL` on an empty heap) and the
new state. -/
def heap_pop (s : State) : Nat × State :=
  match s.free_heap with
  | [] => (0, s)
  | root :: rest =>
    let h := (root :: rest).dropLast
    let h := h.set 0 ((root :: rest).getLast?.getD 0)
    (root, { s with free_heap := heapify_down s.mem h.length h 0 })

/-! ## Blocks -/

/-- Function `request_memory_from_os`: the new block, or `NULL`. -/
def request_memory_from_os (s : State) (size : Nat) : Nat × State :=
  match sbrk s ((size + sizeof_Block) % SIZE_MOD) with
  | none => (0, s)
  | some (mem, s1) =>
    let block := mem
    let m := set_size s1.mem block size
    let m := set_is_free m block 0
    let m := set_next m block 0
    (block, { s1 with mem := m })

/-- Function `split_block`. The pointer `new_block`, which is
`(char*)(block + 1) + size`, wraps at `2 ^ 64`. -/
def split_block (s : State) (block size : Nat) : State :=
  if get_size s.mem block ≥ (size + sizeof_Block + MIN_BLOCK_SIZE) % SIZE_MOD then
    let new_block := (block + sizeof_Block + size) % SIZE_MOD
    let m := set_size s.mem new_block
      ((get_size s.mem block + SIZE_MOD - size + SIZE_MOD - sizeof_Block) % SIZE_MOD)
    let m := set_is_free m new_block 1
    let m := set_next m new_block (get_next m block)
    let m := set_size m block size
    let m := set_next m block new_block
    heap_push { s with mem := m } new_block
  else s

/-- Loop of `merge_adjacent_blocks`, one iteration per unit of fuel. -/
def merge_loop : Nat → Mem → Nat → Mem
  | 0, m, _ => m
  | fuel + 1, m, current =>
    if get_next m current ≠ 0 ∧ get_is_free m (get_next m current) then
      let m1 := set_size m current
        ((get_size m current + (sizeof_Block + get_size m (get_next m current))) % SIZE_MOD)
      let m2 := set_next m1 current (get_next m1 (get_next m1 current))
      merge_loop fuel m2 current
    else m

/-! ## The public operations -/

/-- Function `init_memory_manager`; `none` stands for the call of `exit`. -/
def init_memory_manager (s : State) (total_memory : Nat) : Option State :=
  match sbrk s total_memory with
  | none => none
  | some (pool, s1) =>
    let initial_block := pool
    let m := set_size s1.mem initial_block
      ((total_memory + SIZE_MOD - sizeof_Block) % SIZE_MOD)
    let m := set_is_free m initial_block 1
    let m := set_next m initial_block 0
    some (heap_push
      { s1 with mem := m, memory_pool := pool, memory_pool_size := total_memory,
                free_heap := [] }
      initial_block)

/-- Candidate search of `my_malloc` (the `while (heap_size > 0)` loop): the
selected block, or `NULL`, and the state with the popped entries gone. -/
def find_block : Nat → State → Nat → Nat × State
  | 0, s, _ => (0, s)
  | fuel + 1, s, size =>
    if 0 < s.free_heap.length then
      let r := heap_pop s
      if get_size r.2.mem r.1 ≥ size ∧ get_is_free r.2.mem r.1 then r
      else find_block fuel r.2 size
    else (0, s)

/-- Function `my_malloc`: the returned pointer (`0` for `NULL`) and the new
state. The candidate search pops one entry per iteration, so the length of the
index is fuel enough. -/
def my_malloc (s : State) (size : Nat) : Nat × State :=
  if size = 0 then (0, s)
  else
    let size := ALIGN8 size
    let r := find_block s.free_heap.length s size
    let r := if r.1 = 0 then request_memory_from_os r.2 size else r
    if r.1 = 0 then (0, r.2)
    else
      let block := r.1
      let s1 := { r.2 with mem := set_is_free r.2.mem block 0 }
      let s2 := split_block s1 block size
      (block + sizeof_Block,
        { s2 with mem := memset s2.mem (block + sizeof_Block) 0 size })

/-- Function `my_free`. The loop of `merge_adjacent_blocks` gets `SIZE_MOD` units
of fuel, more than a chain of distinct block addresses has links. -/
def my_free (s : State) (ptr : Nat) : State :=
  if ptr = 0 then s
  else
    let block := ptr - sizeof_Block
    let m := set_is_free s.mem block 1
    let m := merge_loop SIZE_MOD m block
    heap_push { s with mem := m } block

/-- Function `my_realloc`: the returned pointer and the new state. -/
def my_realloc (s : State) (ptr size : Nat) : Nat × State :=
  if ptr = 0 then my_malloc s size
  else if size = 0 then (0, my_free s ptr)
  else
    let block := ptr - sizeof_Block
    if get_size s.mem block ≥ size then (ptr, s)
    else
      let r := my_malloc s size
      if r.1 ≠ 0 then
        let m := memcpy r.2.mem r.1 ptr (get_size r.2.mem block)
        (r.1, my_free { r.2 with mem := m } ptr)
      else r

/-- Function `destroy_memory_manager`. -/
def destroy_memory_manager (s : State) : State :=
  { s with memory_pool := 0, memory_pool_size := 0, free_heap := [] }

/-- A process before `init_memory_manager`: zeroed memory, the break at `brk0`
and room for the break to rise to `limit`. -/
def boot (brk0 limit : Nat) : State :=
  { mem := fun _ => 0, brk := brk0, os_limit := limit,
    memory_pool := 0, memory_pool_size := 0, free_heap := [] }

/-! ## Derived definitions -/

/-- Run of the usage scenario: a pool of `1048576` bytes at address `4096`, then
`a = my_malloc(256)`, `b = my_malloc(1024)`, `my_free(b)`, `c = my_malloc(512)`.
The result is `(a, b, c)` and the index after `my_free(b)`. -/
def reuse_scenario : Option (Nat × Nat × Nat × List Nat) :=
  (init_memory_manager (boot 4096 (2 ^ 32)) 1048576).map fun s0 =>
    let a := my_malloc s0 256
    let b := my_malloc a.2 1024
    let s3 := my_free b.2 b.1
    let c := my_malloc s3 512
    (a.1, b.1, c.1, s3.free_heap)

/-- State of a pool of `104` bytes at address `4096` after
`a = my_malloc(8)`, `b = my_malloc(8)`, `my_free(b)`, `p = my_malloc(16)`;
the result is `p` and the state. -/
def stale_entry_run : Option (Nat × State) :=
  (init_memory_manager (boot 4096 8192) 104).map fun s0 =>
    let a := my_malloc s0 8
    let b := my_malloc a.2 8
    let s3 := my_free b.2 b.1
    my_malloc s3 16

/-- Continuation of `stale_entry_run` by `q = my_malloc(48)`, with `p` never
released; the result is `(p, q)`. -/
def overlap_scenario : Option (Nat × Nat) :=
  stale_entry_run.map fun p => (p.1, (my_malloc p.2 48).1)

/-- Continuation of `stale_entry_run`: the caller fills the 16 bytes at `p` with
the byte `171` and calls `r = my_realloc(p, 24)`. The result is `p`, the byte at
`p` before the call, `r`, the byte at `r` after the call, and the size and the
free flag of the block of `r`. -/
def realloc_scenario : Option (Nat × Nat × Nat × Nat × Nat × Bool) :=
  stale_entry_run.map fun p =>
    let s := { p.2 with mem := memset p.2.mem p.1 171 16 }
    let r := my_realloc s p.1 24
    (p.1, s.mem p.1, r.1, r.2.mem r.1,
      get_size r.2.mem (r.1 - sizeof_Block), get_is_free r.2.mem (r.1 - sizeof_Block))

/-- The block that `my_malloc` settles on before it marks it used: the result of
the candidate search or, when that is `NULL`, of `request_memory_from_os`. -/
def chosen_block (s : State) (size : Nat) : Nat × State :=
  let r := find_block s.free_heap.length s (ALIGN8 size)
  if r.1 = 0 then request_memory_from_os r.2 (ALIGN8 size) else r

/-- A fresh pool of `104` bytes at address `4096`, with the break allowed to
rise to `8192`. -/
def pool104 : State :=
  (init_memory_manager (boot 4096 8192) 104).getD (boot 4096 8192)

/-- States of a pool created by `init_memory_manager(total)` on which nothing
but `my_malloc` has been called since, each request at most `2 ^ 63 - 32`. -/
inductive AllocOnly (total : Nat) : State → Prop
  | init (s0 s : State) : s0.brk ≠ 0 → init_memory_manager s0 total = some s →
      AllocOnly total s
  | alloc (s : State) (k : Nat) : AllocOnly total s → k + 32 ≤ 2 ^ 63 →
      AllocOnly total (my_malloc s k).2

/-- The index is empty or holds one block, which together with its header is
no larger than `total`; the break is not `NULL`. -/
def SmallIndex (total : Nat) (s : State) : Prop :=
  s.brk ≠ 0 ∧
    (s.free_heap = [] ∨
      ∃ e, s.free_heap = [e] ∧ get_size s.mem e + sizeof_Block ≤ total)

/-- A fresh pool of `104` bytes at address `4096` when the operating system
grants nothing beyond it. -/
def pool104_tight : State :=
  (init_memory_manager (boot 4096 4200) 104).getD (boot 4096 4200)

/-- A pool of `104` bytes at `4096` cut into three used blocks by
`my_malloc(8)`, `my_malloc(8)`, `my_malloc(16)`: block `4096` (payload `4120`),
block `4128` (payload `4152`) and block `4160` (payload `4184`). -/
def three_blocks : State :=
  (my_malloc (my_malloc (my_malloc pool104 8).2 8).2 16).2

/-- The blocks `F`, in this order, are all marked free and each is linked by
`next` to the one after it, the last one to `t`. -/
def FreeRun (m : Mem) : List Nat → Nat → Prop
  | [], _ => True
  | f :: rest, t =>
    get_is_free m f = true ∧ get_next m f = (rest ++ [t]).headD 0 ∧ FreeRun m rest t

/-- Sum of `sizeof(Block) + size` over the blocks `F`: the bytes that absorbing
them adds to a block. -/
def absorbed (m : Mem) (F : List Nat) : Nat :=
  (F.map fun f => sizeof_Block + get_size m f).sum

/-- The address-ordered chain of the data model: the blocks `L`, in this order,
are linked by `next`, each block begins where the one before it ends, and the
last one is linked to `t`. -/
def Linked (m : Mem) : List Nat → Nat → Prop
  | [], _ => True
  | [x], t => get_next m x = t
  | x :: y :: rest, t =>
    get_next m x = y ∧ y = x + sizeof_Block + get_size m x ∧ Linked m (y :: rest) t

/-- Evaluation of `Linked` on a concrete memory and list. -/
instance Linked.decidable (m : Mem) : ∀ (L : List Nat) (t : Nat), Decidable (Linked m L t)
  | [], _ => isTrue trivial
  | [x], t => inferInstanceAs (Decidable (get_next m x = t))
  | x :: y :: rest, t =>
    have := Linked.decidable m (y :: rest) t
    inferInstanceAs (Decidable
      (get_next m x = y ∧ y = x + sizeof_Block + get_size m x ∧ Linked m (y :: rest) t))

/-- A pool of `168` bytes at `4096` cut by four calls `my_malloc(8)` into the
blocks `4096`, `4128`, `4160`, `4192` (used, size 8) and the remainder `4224`
(free, size 16), after `my_free(4152)` and then `my_free(4184)`: blocks `4128`
and `4160` are free and adjacent, block `4192` is used. -/
def free_pair : State :=
  let s0 := (init_memory_manager (boot 4096 8192) 168).getD (boot 4096 8192)
  let s4 := (my_malloc (my_malloc (my_malloc (my_malloc s0 8).2 8).2 8).2 8).2
  my_free (my_free s4 4152) 4184

/-- A fresh pool of `104` bytes at `4096` after `a = my_malloc(8)`,
`b = my_malloc(8)` and `my_free(b)`: the release merges the remainder block
`4160` into the block `4128` of `b`. -/
def merged_remainder : State :=
  my_free (my_malloc (my_malloc pool104 8).2 8).2 4152

/-- A pool of `168` bytes at `4096` cut by four calls `my_malloc(8)` into the
used blocks `4096`, `4128`, `4160`, `4192` (size 8) and the free remainder
`4224` (size 16). -/
def four_blocks : State :=
  (my_malloc (my_malloc (my_malloc (my_malloc
    ((init_memory_manager (boot 4096 8192) 168).getD (boot 4096 8192)) 8).2 8).2 8).2 8).2

/-- Bytes covered by the blocks `L`: the sum of `sizeof(Block) + size`. -/
def chain_bytes (m : Mem) (L : List Nat) : Nat :=
  (L.map fun b => sizeof_Block + get_size m b).sum

/-- A fresh pool of 104 bytes after `my_malloc(1000)`, which has to grow the
pool. -/
def grown_pool : State :=
  (my_malloc pool104 1000).2

/-- The min-heap property of the index on block size: every entry's size is at
least its parent's. -/
def IsMinHeap (m : Mem) (h : List Nat) : Prop :=
  ∀ i, i < h.length → 0 < i →
    get_size m (h.getD ((i - 1) / 2) 0) ≤ get_size m (h.getD i 0)

/-- The heap property holds for every entry but `i`, and the parent of `i` is
no larger than the children of `i`: the state of `heapify_up` at index `i`. -/
def UpInv (m : Mem) (h : List Nat) (i : Nat) : Prop :=
  (∀ j, j < h.length → 0 < j → j ≠ i →
    get_size m (h.getD ((j - 1) / 2) 0) ≤ get_size m (h.getD j 0)) ∧
  (∀ j, j < h.length → 0 < j → (j - 1) / 2 = i → 0 < i →
    get_size m (h.getD ((i - 1) / 2) 0) ≤ get_size m (h.getD j 0))

/-- The heap property holds for every entry whose parent is not `i`, and the
parent of `i` is no larger than the children of `i`: the state of
`heapify_down` at index `i`. -/
def DownInv (m : Mem) (h : List Nat) (i : Nat) : Prop :=
  (∀ j, j < h.length → 0 < j → (j - 1) / 2 ≠ i →
    get_size m (h.getD ((j - 1) / 2) 0) ≤ get_size m (h.getD j 0)) ∧
  (∀ j, j < h.length → 0 < j → (j - 1) / 2 = i → 0 < i →
    get_size m (h.getD ((i - 1) / 2) 0) ≤ get_size m (h.getD j 0))

/-- Evaluation of `IsMinHeap` on a concrete memory and list. -/
instance IsMinHeap.decidable (m : Mem) (h : List Nat) : Decidable (IsMinHeap m h) :=
  inferInstanceAs (Decidable (∀ i, i < h.length → 0 < i →
    get_size m (h.getD ((i - 1) / 2) 0) ≤ get_size m (h.getD i 0)))

/-- A fresh pool of `168` bytes at address `4096`, with no room for the break to
rise. -/
def pool168 : State :=
  (init_memory_manager (boot 4096 4264) 168).getD (boot 4096 4264)

/-- Run on `pool168`: `a = my_malloc(48)`, `my_free(a)`, `p = my_malloc(8)`
(served by the block that `my_free(a)` absorbed), `b = my_malloc(48)` (whose
split writes a new header at the block of `p`), `my_free(p)` and
`q = my_malloc(8)`. The result is `[a, p, b, q]` and the final state. -/
def used_entry_run : List Nat × State :=
  let a := my_malloc pool168 48
  let s2 := my_free a.2 a.1
  let p := my_malloc s2 8
  let b := my_malloc p.2 48
  let s5 := my_free b.2 p.1
  let q := my_malloc s5 8
  ([a.1, p.1, b.1, q.1], q.2)

/-- Final state of `used_entry_run`: the index is `[4168, 4200]` and block `4168`
is used. -/
def used_entry_state : State :=
  used_entry_run.2

/-- Run on `pool168`: `a = my_malloc(8)`, `b = my_malloc(16)`, `my_free(b)`,
`c = my_malloc(48)` (served by the block that `my_free(b)` absorbed),
`d = my_malloc(8)`, `my_free(c)`. The result is `[a, b, c, d]` and the final
state. -/
def broken_link_run : List Nat × State :=
  let a := my_malloc pool168 8
  let b := my_malloc a.2 16
  let s3 := my_free b.2 b.1
  let c := my_malloc s3 48
  let d := my_malloc c.2 8
  ([a.1, b.1, c.1, d.1], my_free d.2 c.1)

/-! # Theorems -/

/-! ## Reading after writing -/

theorem load_congr (m m2 : Mem) (k : Nat) : ∀ a : Nat,
    (∀ x, a ≤ x → x < a + k → m x = m2 x) → load m a k = load m2 a k := by
  induction k with
  | zero => intro a _; rfl
  | succ k ih =>
    intro a h
    simp only [load]
    rw [h a (le_refl a) (by omega), ih (a + 1) (fun x h1 h2 => h x (by omega) (by omega))]

theorem load_lt (m : Mem) (k : Nat) : ∀ a : Nat, load m a k < 256 ^ k := by
  induction k with
  | zero => intro a; simp [load]
  | succ k ih =>
    intro a
    simp only [load]
    have h1 := ih (a + 1)
    have h2 : m a % 256 < 256 := Nat.mod_lt _ (by norm_num)
    rw [pow_succ]
    nlinarith

theorem load_store_same (m : Mem) (k : Nat) : ∀ a v : Nat,
    load (store m a k v) a k = v % 256 ^ k := by
  induction k with
  | zero => intro a v; simp [load, Nat.mod_one]
  | succ k ih =>
    intro a v
    simp only [load]
    have h0 : store m a (k + 1) v a = v % 256 := by
      simp [store]
    have h1 : load (store m a (k + 1) v) (a + 1) k
        = load (store m (a + 1) k (v / 256)) (a + 1) k := by
      apply load_congr
      intro x hx1 hx2
      have e : x - a = (x - (a + 1)) + 1 := by omega
      simp only [store]
      rw [if_pos ⟨by omega, by omega⟩, if_pos ⟨hx1, hx2⟩, e, pow_succ,
        Nat.mul_comm, Nat.div_div_eq_div_mul]
    rw [h0, h1, ih, Nat.mod_mod, pow_succ', Nat.mod_mul]

theorem load_store_disjoint (m : Mem) (a k v b j : Nat)
    (h : b + j ≤ a ∨ a + k ≤ b) : load (store m a k v) b j = load m b j := by
  apply load_congr
  intro x h1 h2
  simp only [store]
  rw [if_neg]
  omega

theorem load_memset_disjoint (m : Mem) (a c k b j : Nat)
    (h : b + j ≤ a ∨ a + k ≤ b) : load (memset m a c k) b j = load m b j := by
  apply load_congr
  intro x h1 h2
  simp only [memset]
  rw [if_neg]
  omega

theorem load_memcpy_disjoint (m : Mem) (a src k b j : Nat)
    (h : b + j ≤ a ∨ a + k ≤ b) : load (memcpy m a src k) b j = load m b j := by
  apply load_congr
  intro x h1 h2
  simp only [memcpy]
  rw [if_neg]
  omega

/-! ## Concrete runs -/

/-- C2, evaluated on the code: after `my_free(b)` the index still holds the
absorbed remainder block at `5424` ahead of the merged block at `4376`, and
`my_malloc(512)` returns `5448`, not the address `b = 4400`. -/
theorem reuse_scenario_returns_remainder :
    reuse_scenario = some (4120, 4400, 5448, [5424, 4376]) := by
  decide

/-- C1, evaluated on the code: `p = 4184` (16 bytes) and `q = 4152` (48 bytes)
are both live and the byte at `4184` belongs to both payloads. -/
theorem overlap_scenario_shares_bytes :
    overlap_scenario = some (4184, 4152) ∧ 4152 ≤ 4184 ∧ 4184 < 4152 + 48 := by
  decide

/-- C7, evaluated on the code: `my_realloc(p, 24)` returns `4152`, a used block
of size `48`, whose first byte is `0` although the byte at `p` was `171`. -/
theorem realloc_scenario_loses_content :
    realloc_scenario = some (4184, 171, 4152, 0, 48, false) := by
  decide

/-! ## The index as a multiset -/

theorem swap_length (h : List Nat) (i j : Nat) : (swap h i j).length = h.length := by
  simp [swap]

theorem swap_perm (h : List Nat) (i j : Nat) (hi : i < h.length) (hj : j < h.length) :
    (swap h i j).Perm h := by
  rw [List.perm_iff_count]
  intro a
  unfold swap
  rw [List.getD_eq_getElem _ _ hi, List.getD_eq_getElem _ _ hj]
  have hj2 : j < (h.set i h[j]).length := by simpa using hj
  rw [List.count_set _ _ _ _ hj2, List.count_set _ _ _ _ hi]
  have e : (h.set i h[j])[j] = h[j] := by
    rw [List.getElem_set]; split <;> simp_all
  rw [e]
  have c1 : h[i] = a → 0 < h.count a := fun hh =>
    List.count_pos_iff.mpr (hh ▸ List.getElem_mem hi)
  by_cases h1 : h[i] = a <;> by_cases h2 : h[j] = a <;> simp [h1, h2] <;> omega

theorem heapify_down_perm (m : Mem) : ∀ (fuel : Nat) (h : List Nat) (index : Nat),
    (heapify_down m fuel h index).Perm h := by
  intro fuel
  induction fuel with
  | zero => intro h index; exact List.Perm.refl _
  | succ fuel ih =>
    intro h index
    simp only [heapify_down]
    split_ifs with h1 h2 h3 h4 h5 h6
    all_goals first
      | exact List.Perm.refl _
      | exact absurd rfl (by assumption)
      | exact (ih _ _).trans (swap_perm _ _ _ (by omega) (by omega))

theorem heapify_up_perm (m : Mem) : ∀ (fuel : Nat) (h : List Nat) (index : Nat),
    index < h.length → (heapify_up m fuel h index).Perm h := by
  intro fuel
  induction fuel with
  | zero => intro h index _; exact List.Perm.refl _
  | succ fuel ih =>
    intro h index hi
    simp only [heapify_up]
    split_ifs with h1
    · have hp : (index - 1) / 2 < h.length := by omega
      exact (ih _ _ (by rw [swap_length]; exact hp)).trans (swap_perm _ _ _ hi hp)
    · exact List.Perm.refl _

theorem heap_push_mem (s : State) (block : Nat) : (heap_push s block).mem = s.mem := rfl

theorem heap_push_brk (s : State) (block : Nat) : (heap_push s block).brk = s.brk := rfl

theorem heap_push_os_limit (s : State) (block : Nat) :
    (heap_push s block).os_limit = s.os_limit := rfl

theorem heap_push_perm (s : State) (block : Nat) :
    (heap_push s block).free_heap.Perm (block :: s.free_heap) := by
  simp only [heap_push]
  refine (heapify_up_perm _ _ _ _ (by simp)).trans ?_
  exact List.perm_append_comm

theorem heap_pop_mem (s : State) : (heap_pop s).2.mem = s.mem := by
  unfold heap_pop; split <;> rfl

theorem heap_pop_brk (s : State) : (heap_pop s).2.brk = s.brk := by
  unfold heap_pop; split <;> rfl

theorem heap_pop_os_limit (s : State) : (heap_pop s).2.os_limit = s.os_limit := by
  unfold heap_pop; split <;> rfl

theorem heap_pop_cons (s : State) (root : Nat) (rest : List Nat)
    (h : s.free_heap = root :: rest) :
    (heap_pop s).1 = root ∧ (heap_pop s).2.free_heap.Perm rest := by
  unfold heap_pop
  rw [h]
  refine ⟨rfl, ?_⟩
  simp only
  refine (heapify_down_perm _ _ _ _).trans ?_
  cases rest with
  | nil => simp
  | cons x xs =>
    have e : (root :: x :: xs).getLast?.getD 0 = (x :: xs).getLast (by simp) := by
      simp [List.getLast?_eq_getLast]
    rw [e]
    simp only [List.dropLast_cons₂, List.set_cons_zero]
    have := List.dropLast_append_getLast (l := x :: xs) (by simp)
    conv_rhs => rw [← this]
    exact (List.perm_append_singleton _ _).symm

/-! ## The candidate search -/

theorem find_block_frame (size : Nat) : ∀ (fuel : Nat) (s : State),
    (find_block fuel s size).2.mem = s.mem ∧ (find_block fuel s size).2.brk = s.brk ∧
      (find_block fuel s size).2.os_limit = s.os_limit := by
  intro fuel
  induction fuel with
  | zero => intro s; exact ⟨rfl, rfl, rfl⟩
  | succ fuel ih =>
    intro s
    simp only [find_block]
    split_ifs with h1 h2
    · exact ⟨heap_pop_mem s, heap_pop_brk s, heap_pop_os_limit s⟩
    · obtain ⟨a, b, c⟩ := ih (heap_pop s).2
      exact ⟨a.trans (heap_pop_mem s), b.trans (heap_pop_brk s), c.trans (heap_pop_os_limit s)⟩
    · exact ⟨rfl, rfl, rfl⟩

theorem find_block_found (size : Nat) : ∀ (fuel : Nat) (s : State),
    (find_block fuel s size).1 = 0 ∨
      ((find_block fuel s size).1 ∈ s.free_heap ∧
        get_size s.mem (find_block fuel s size).1 ≥ size ∧
        get_is_free s.mem (find_block fuel s size).1 = true) := by
  intro fuel
  induction fuel with
  | zero => intro s; exact Or.inl rfl
  | succ fuel ih =>
    intro s
    simp only [find_block]
    split_ifs with h1 h2
    · right
      obtain ⟨root, rest, hr⟩ := List.exists_cons_of_length_pos h1
      have hp := heap_pop_cons s root rest hr
      rw [heap_pop_mem] at h2
      refine ⟨?_, h2.1, h2.2⟩
      rw [hp.1, hr]; exact List.mem_cons_self _ _
    · obtain ⟨root, rest, hr⟩ := List.exists_cons_of_length_pos h1
      have hp := heap_pop_cons s root rest hr
      rcases ih (heap_pop s).2 with h | ⟨hm, hs, hf⟩
      · exact Or.inl h
      · right
        rw [heap_pop_mem] at hs hf
        refine ⟨?_, hs, hf⟩
        rw [hr]
        exact List.mem_cons_of_mem _ (hp.2.subset hm)
    · exact Or.inl rfl

theorem find_block_none (size : Nat) : ∀ (fuel : Nat) (s : State),
    s.free_heap.length ≤ fuel → (∀ e ∈ s.free_heap, e ≠ 0) →
    (find_block fuel s size).1 = 0 →
    ∀ e ∈ s.free_heap, ¬ (get_size s.mem e ≥ size ∧ get_is_free s.mem e = true) := by
  intro fuel
  induction fuel with
  | zero =>
    intro s hl _ _ e he
    have : s.free_heap = [] := List.length_eq_zero.mp (Nat.le_zero.mp hl)
    rw [this] at he
    exact absurd he (List.not_mem_nil e)
  | succ fuel ih =>
    intro s hl hz
    simp only [find_block]
    split_ifs with h1 h2
    · intro h0
      obtain ⟨root, rest, hr⟩ := List.exists_cons_of_length_pos h1
      have hp := heap_pop_cons s root rest hr
      exact absurd (hp.1.symm.trans h0) (hz root (by rw [hr]; exact List.mem_cons_self _ _))
    · intro h0 e he
      obtain ⟨root, rest, hr⟩ := List.exists_cons_of_length_pos h1
      have hp := heap_pop_cons s root rest hr
      rw [heap_pop_mem, hp.1] at h2
      rw [hr] at he
      rcases List.mem_cons.mp he with h | h
      · rw [h]; exact h2
      · have hlen : (heap_pop s).2.free_heap.length ≤ fuel := by
          rw [hp.2.length_eq]; rw [hr] at hl; simpa using hl
        have hz2 : ∀ e ∈ (heap_pop s).2.free_heap, e ≠ 0 := fun x hx =>
          hz x (by rw [hr]; exact List.mem_cons_of_mem _ (hp.2.subset hx))
        have := ih (heap_pop s).2 hlen hz2 h0 e (hp.2.symm.subset h)
        rwa [heap_pop_mem] at this
    · intro _ e he
      have : s.free_heap = [] := List.length_eq_zero.mp (by omega)
      rw [this] at he
      exact absurd he (List.not_mem_nil e)

/-! ## Header fields under writes -/

theorem get_size_store (m : Mem) (a k v b : Nat) (h : b + 8 ≤ a ∨ a + k ≤ b) :
    get_size (store m a k v) b = get_size m b :=
  load_store_disjoint m a k v b 8 h

theorem get_is_free_store (m : Mem) (a k v b : Nat) (h : b + 12 ≤ a ∨ a + k ≤ b + 8) :
    get_is_free (store m a k v) b = get_is_free m b := by
  unfold get_is_free
  rw [load_store_disjoint m a k v (b + 8) 4 (by omega)]

theorem get_next_store (m : Mem) (a k v b : Nat) (h : b + 24 ≤ a ∨ a + k ≤ b + 16) :
    get_next (store m a k v) b = get_next m b :=
  load_store_disjoint m a k v (b + 16) 8 (by omega)

theorem get_size_memset (m : Mem) (a c k b : Nat) (h : b + 8 ≤ a ∨ a + k ≤ b) :
    get_size (memset m a c k) b = get_size m b :=
  load_memset_disjoint m a c k b 8 h

theorem get_is_free_memset (m : Mem) (a c k b : Nat) (h : b + 12 ≤ a ∨ a + k ≤ b + 8) :
    get_is_free (memset m a c k) b = get_is_free m b := by
  unfold get_is_free
  rw [load_memset_disjoint m a c k (b + 8) 4 (by omega)]

theorem get_next_memset (m : Mem) (a c k b : Nat) (h : b + 24 ≤ a ∨ a + k ≤ b + 16) :
    get_next (memset m a c k) b = get_next m b :=
  load_memset_disjoint m a c k (b + 16) 8 (by omega)

theorem get_size_set_size (m : Mem) (b v : Nat) :
    get_size (set_size m b v) b = v % SIZE_MOD := by
  unfold get_size set_size
  rw [load_store_same]; rfl

theorem get_next_set_next (m : Mem) (b v : Nat) :
    get_next (set_next m b v) b = v % SIZE_MOD := by
  unfold get_next set_next
  rw [load_store_same]; rfl

theorem get_is_free_set_is_free (m : Mem) (b v : Nat) :
    get_is_free (set_is_free m b v) b = (v % 2 ^ 32 != 0) := by
  unfold get_is_free set_is_free
  rw [load_store_same]; rfl

theorem get_size_lt (m : Mem) (b : Nat) : get_size m b < SIZE_MOD := by
  unfold get_size SIZE_MOD
  exact load_lt m 8 b

theorem get_next_lt (m : Mem) (b : Nat) : get_next m b < SIZE_MOD := by
  unfold get_next SIZE_MOD
  exact load_lt m 8 (b + 16)

theorem split_target_of_lt (block size : Nat)
    (h : block + sizeof_Block + size < SIZE_MOD) :
    (block + sizeof_Block + size) % SIZE_MOD = block + sizeof_Block + size :=
  Nat.mod_eq_of_lt h

theorem split_target_apart (block size : Nat)
    (hw : size + sizeof_Block + sizeof_Block ≤ SIZE_MOD) :
    block + sizeof_Block + size ≤ (block + sizeof_Block + size) % SIZE_MOD ∨
      (block + sizeof_Block + size) % SIZE_MOD + sizeof_Block ≤ block := by
  unfold SIZE_MOD sizeof_Block at *
  omega

theorem split_target_apart_of_lt (block size : Nat)
    (h : block + sizeof_Block + size < SIZE_MOD) :
    block + sizeof_Block + size ≤ (block + sizeof_Block + size) % SIZE_MOD ∨
      (block + sizeof_Block + size) % SIZE_MOD + sizeof_Block ≤ block := by
  rw [split_target_of_lt block size h]
  exact Or.inl (le_refl _)

theorem split_block_is_free_self (s : State) (block size : Nat)
    (hd : block + sizeof_Block + size ≤ (block + sizeof_Block + size) % SIZE_MOD ∨
      (block + sizeof_Block + size) % SIZE_MOD + sizeof_Block ≤ block) :
    get_is_free (split_block s block size).mem block = get_is_free s.mem block := by
  unfold split_block
  split_ifs with h
  · rw [heap_push_mem]
    generalize (block + sizeof_Block + size) % SIZE_MOD = nb at hd
    simp only [set_next, set_size, set_is_free]
    unfold sizeof_Block at hd
    rw [get_is_free_store _ _ _ _ _ (by omega), get_is_free_store _ _ _ _ _ (by omega),
      get_is_free_store _ _ _ _ _ (by omega), get_is_free_store _ _ _ _ _ (by omega),
      get_is_free_store _ _ _ _ _ (by omega)]
  · rfl

/-! ## Results of `my_malloc` -/

theorem sbrk_none_congr (s t : State) (incr : Nat) (h1 : s.brk = t.brk)
    (h2 : s.os_limit = t.os_limit) : sbrk s incr = none ↔ sbrk t incr = none := by
  unfold sbrk
  rw [h1, h2]
  split_ifs <;> simp

theorem request_memory_from_os_null (s : State) (size : Nat) (hb : s.brk ≠ 0) :
    (request_memory_from_os s size).1 = 0 ↔
      sbrk s ((size + sizeof_Block) % SIZE_MOD) = none := by
  unfold request_memory_from_os
  cases h : sbrk s ((size + sizeof_Block) % SIZE_MOD) with
  | none => simp
  | some p =>
    have : p.1 = s.brk := by
      unfold sbrk at h
      split_ifs at h <;> (cases h; rfl)
    simp only [reduceCtorEq, iff_false]
    rw [this]; exact hb

theorem my_malloc_of_chosen (s : State) (n : Nat) (hn : n ≠ 0) :
    my_malloc s n =
      if (chosen_block s n).1 = 0 then (0, (chosen_block s n).2)
      else
        ((chosen_block s n).1 + sizeof_Block,
          { split_block
              { (chosen_block s n).2 with
                mem := set_is_free (chosen_block s n).2.mem (chosen_block s n).1 0 }
              (chosen_block s n).1 (ALIGN8 n) with
            mem := memset
              (split_block
                { (chosen_block s n).2 with
                  mem := set_is_free (chosen_block s n).2.mem (chosen_block s n).1 0 }
                (chosen_block s n).1 (ALIGN8 n)).mem
              ((chosen_block s n).1 + sizeof_Block) 0 (ALIGN8 n) }) := by
  unfold my_malloc chosen_block
  rw [if_neg hn]

theorem chosen_block_null_iff (s : State) (n : Nat) (hz : ∀ e ∈ s.free_heap, e ≠ 0)
    (hb : s.brk ≠ 0) :
    (chosen_block s n).1 = 0 ↔
      ((∀ e ∈ s.free_heap,
          ¬ (get_size s.mem e ≥ ALIGN8 n ∧ get_is_free s.mem e = true)) ∧
        sbrk s ((ALIGN8 n + sizeof_Block) % SIZE_MOD) = none) := by
  have hf := find_block_frame (ALIGN8 n) s.free_heap.length s
  have hc := sbrk_none_congr (find_block s.free_heap.length s (ALIGN8 n)).2 s
    ((ALIGN8 n + sizeof_Block) % SIZE_MOD) hf.2.1 hf.2.2
  unfold chosen_block
  simp only
  split_ifs with h0
  · rw [request_memory_from_os_null _ _ (by rw [hf.2.1]; exact hb), hc]
    constructor
    · intro h
      exact ⟨find_block_none (ALIGN8 n) _ s (le_refl _) hz h0, h⟩
    · intro h; exact h.2
  · constructor
    · intro h; exact absurd h h0
    · intro h
      rcases find_block_found (ALIGN8 n) s.free_heap.length s with h1 | ⟨hm, hs, hfr⟩
      · exact h1
      · exact absurd ⟨hs, hfr⟩ (h.1 _ hm)

theorem my_malloc_marks_used (s : State) (n : Nat) (hn : n ≠ 0)
    (hw : ALIGN8 n + sizeof_Block + sizeof_Block ≤ SIZE_MOD)
    (h0 : (chosen_block s n).1 ≠ 0) :
    (my_malloc s n).1 = (chosen_block s n).1 + sizeof_Block ∧
      get_is_free (my_malloc s n).2.mem (chosen_block s n).1 = false := by
  rw [my_malloc_of_chosen s n hn, if_neg h0]
  refine ⟨rfl, ?_⟩
  simp only []
  rw [get_is_free_memset _ _ _ _ _ (by unfold sizeof_Block; omega),
    split_block_is_free_self _ _ _ (split_target_apart _ _ hw), get_is_free_set_is_free]
  rfl

/-- For a request whose rounded size leaves room for two headers below
`2 ^ 64`, `my_malloc(n)` returns `NULL` exactly when `n = 0`, or no entry of the
index is a free block of size at least `ALIGN8(n)` and the `sbrk` request for
`ALIGN8(n) + sizeof(Block)` bytes fails; otherwise it returns
`block + sizeof(Block)` for a block whose header is marked used. -/
theorem my_malloc_null_iff_bounded (s : State) (n : Nat)
    (hw : ALIGN8 n + sizeof_Block + sizeof_Block ≤ SIZE_MOD)
    (hz : ∀ e ∈ s.free_heap, e ≠ 0) (hb : s.brk ≠ 0) :
    ((my_malloc s n).1 = 0 ↔
      n = 0 ∨
        ((∀ e ∈ s.free_heap,
            ¬ (get_size s.mem e ≥ ALIGN8 n ∧ get_is_free s.mem e = true)) ∧
          sbrk s ((ALIGN8 n + sizeof_Block) % SIZE_MOD) = none)) ∧
    ((my_malloc s n).1 ≠ 0 →
      ∃ block, (my_malloc s n).1 = block + sizeof_Block ∧
        get_is_free (my_malloc s n).2.mem block = false) := by
  by_cases hn : n = 0
  · subst hn
    have e : (my_malloc s 0).1 = 0 := by simp [my_malloc]
    exact ⟨by simp [e], fun h => absurd e h⟩
  · have hc := chosen_block_null_iff s n hz hb
    by_cases h0 : (chosen_block s n).1 = 0
    · have e : (my_malloc s n).1 = 0 := by
        rw [my_malloc_of_chosen s n hn, if_pos h0]
      refine ⟨?_, fun h => absurd e h⟩
      constructor
      · intro _; exact Or.inr (hc.mp h0)
      · intro _; exact e
    · have hm := my_malloc_marks_used s n hn hw h0
      refine ⟨?_, fun _ => ⟨_, hm.1, hm.2⟩⟩
      constructor
      · intro h
        rw [hm.1] at h
        exact absurd h (by unfold sizeof_Block; omega)
      · intro h
        rcases h with h | h
        · exact absurd h hn
        · exact absurd (hc.mpr h) h0

/-- The bounded characterisation on a fresh pool of `104` bytes and the
request `8`. -/
theorem my_malloc_null_iff_bounded_at_8 :
    (∀ e ∈ pool104.free_heap, e ≠ 0) ∧ pool104.brk ≠ 0 ∧
    (((my_malloc pool104 8).1 = 0 ↔
      8 = 0 ∨
        ((∀ e ∈ pool104.free_heap,
            ¬ (get_size pool104.mem e ≥ ALIGN8 8 ∧ get_is_free pool104.mem e = true)) ∧
          sbrk pool104 ((ALIGN8 8 + sizeof_Block) % SIZE_MOD) = none)) ∧
    ((my_malloc pool104 8).1 ≠ 0 →
      ∃ block, (my_malloc pool104 8).1 = block + sizeof_Block ∧
        get_is_free (my_malloc pool104 8).2.mem block = false)) :=
  ⟨by decide, by decide,
    my_malloc_null_iff_bounded pool104 8 (by decide) (by decide) (by decide)⟩

/-! ## Rounding of the request -/

theorem ALIGN8_least (n : Nat) (h : n + 8 ≤ SIZE_MOD) :
    ALIGN8 n % 8 = 0 ∧ n ≤ ALIGN8 n ∧ ALIGN8 n < n + 8 ∧
      ∀ k, k % 8 = 0 → n ≤ k → ALIGN8 n ≤ k := by
  unfold ALIGN8
  unfold SIZE_MOD at h ⊢
  have e : (n + 7) % 2 ^ 64 = n + 7 := Nat.mod_eq_of_lt (by omega)
  rw [e]
  refine ⟨by omega, by omega, by omega, fun k hk hn => by omega⟩

/-- C5, evaluated on the code: for the request `2 ^ 64 - 1` the macro `ALIGN8`
wraps to `0`, and on a fresh pool of 104 bytes `my_malloc` returns the non-null
address `4120` of a block whose size is `0`. -/
theorem ALIGN8_wraps_to_zero :
    ALIGN8 (2 ^ 64 - 1) = 0 ∧ (my_malloc pool104 (2 ^ 64 - 1)).1 = 4120 ∧
      get_size (my_malloc pool104 (2 ^ 64 - 1)).2.mem (4120 - sizeof_Block) = 0 := by
  decide

/-! ## Zero fill -/

theorem my_malloc_zero_fill (s : State) (n x : Nat) (h0 : (my_malloc s n).1 ≠ 0)
    (h1 : (my_malloc s n).1 ≤ x) (h2 : x < (my_malloc s n).1 + ALIGN8 n) :
    (my_malloc s n).2.mem x = 0 := by
  by_cases hn : n = 0
  · subst hn; exact absurd (by simp [my_malloc]) h0
  · rw [my_malloc_of_chosen s n hn] at h0 h1 h2 ⊢
    by_cases hc : (chosen_block s n).1 = 0
    · rw [if_pos hc] at h0; exact absurd rfl h0
    · rw [if_neg hc] at h1 h2 ⊢
      simp only [memset]
      rw [if_pos ⟨h1, h2⟩]

/-- C10, evaluated on the code: for the request `2 ^ 64 - 1` on a fresh pool of
104 bytes `my_malloc` returns `4120` and the first byte of the returned region
reads `56`. -/
theorem my_malloc_wrapped_request_not_zeroed :
    (my_malloc pool104 (2 ^ 64 - 1)).1 = 4120 ∧
      (my_malloc pool104 (2 ^ 64 - 1)).2.mem 4120 = 56 := by
  decide

/-! ## Resizing within the block -/

/-- C6, counterexample: with `p = my_malloc(8)` on a fresh pool, the block of `p`
has size `8 ≥ 0`, yet `my_realloc(p, 0)` returns `NULL` and marks the block
free. -/
theorem my_realloc_zero_releases :
    (my_malloc pool104 8).1 = 4120 ∧
      0 ≤ get_size (my_malloc pool104 8).2.mem (4120 - sizeof_Block) ∧
      (my_realloc (my_malloc pool104 8).2 4120 0).1 = 0 ∧
      get_is_free (my_malloc pool104 8).2.mem (4120 - sizeof_Block) = false ∧
      get_is_free (my_realloc (my_malloc pool104 8).2 4120 0).2.mem
        (4120 - sizeof_Block) = true := by
  decide

/-- C6, amended: for a non-null `ptr` and `0 < n ≤ block->size`, `my_realloc`
returns `ptr` and leaves the whole state (memory, hence every header and the
chain, and the index) as it was. -/
theorem my_realloc_within_size (s : State) (ptr n : Nat) (hp : ptr ≠ 0) (hn : 0 < n)
    (hs : n ≤ get_size s.mem (ptr - sizeof_Block)) :
    my_realloc s ptr n = (ptr, s) := by
  unfold my_realloc
  rw [if_neg hp, if_neg (by omega)]
  simp only [ge_iff_le]
  rw [if_pos hs]

/-- Witness for C6 amended: `p = 4120` from `my_malloc(8)` resized to `5`. -/
theorem my_realloc_within_size_witness :
    4120 ≠ 0 ∧ 0 < 5 ∧ 5 ≤ get_size (my_malloc pool104 8).2.mem (4120 - sizeof_Block) ∧
      my_realloc (my_malloc pool104 8).2 4120 5 = (4120, (my_malloc pool104 8).2) :=
  ⟨by decide, by decide, by decide,
    my_realloc_within_size (my_malloc pool104 8).2 4120 5 (by decide) (by decide)
      (by decide)⟩

/-! ## Splitting and growth -/

theorem find_block_length (size : Nat) : ∀ (fuel : Nat) (s : State),
    s.free_heap.length ≤ fuel →
    (find_block fuel s size).2.free_heap.length ≤ s.free_heap.length - 1 := by
  intro fuel
  induction fuel with
  | zero =>
    intro s hl
    simp only [find_block]; omega
  | succ fuel ih =>
    intro s hl
    simp only [find_block]
    split_ifs with h1 h2
    · obtain ⟨root, rest, hr⟩ := List.exists_cons_of_length_pos h1
      have hp := heap_pop_cons s root rest hr
      rw [hp.2.length_eq, hr]; simp
    · obtain ⟨root, rest, hr⟩ := List.exists_cons_of_length_pos h1
      have hp := heap_pop_cons s root rest hr
      have hlen : (heap_pop s).2.free_heap.length = rest.length := hp.2.length_eq
      have hl2 : rest.length ≤ fuel := by rw [hr] at hl; simpa using hl
      have := ih (heap_pop s).2 (by omega)
      rw [hr]; simp only [List.length_cons]; omega
    · show s.free_heap.length ≤ s.free_heap.length - 1
      omega

theorem split_block_brk (s : State) (block size : Nat) :
    (split_block s block size).brk = s.brk ∧
      (split_block s block size).os_limit = s.os_limit := by
  unfold split_block
  split_ifs <;> exact ⟨rfl, rfl⟩

theorem split_block_no_split (s : State) (block size : Nat)
    (h : ¬ get_size s.mem block ≥ (size + sizeof_Block + MIN_BLOCK_SIZE) % SIZE_MOD) :
    split_block s block size = s := by
  unfold split_block
  rw [if_neg h]

theorem split_block_heap (s : State) (block size : Nat)
    (h : get_size s.mem block ≥ (size + sizeof_Block + MIN_BLOCK_SIZE) % SIZE_MOD) :
    (split_block s block size).free_heap.Perm
      (((block + sizeof_Block + size) % SIZE_MOD) :: s.free_heap) := by
  unfold split_block
  rw [if_pos h]
  exact heap_push_perm _ _

theorem split_block_new_size (s : State) (block size : Nat)
    (h : get_size s.mem block ≥ (size + sizeof_Block + MIN_BLOCK_SIZE) % SIZE_MOD)
    (hd : block + sizeof_Block + size ≤ (block + sizeof_Block + size) % SIZE_MOD ∨
      (block + sizeof_Block + size) % SIZE_MOD + sizeof_Block ≤ block) :
    get_size (split_block s block size).mem ((block + sizeof_Block + size) % SIZE_MOD) =
      (get_size s.mem block + SIZE_MOD - size + SIZE_MOD - sizeof_Block) % SIZE_MOD := by
  unfold split_block
  rw [if_pos h, heap_push_mem]
  generalize (block + sizeof_Block + size) % SIZE_MOD = nb at hd
  simp only [set_next, set_is_free]
  unfold sizeof_Block at hd ⊢
  rw [get_size_store _ _ _ _ _ (by omega), ]
  simp only [set_size]
  rw [get_size_store _ _ _ _ _ (by omega), get_size_store _ _ _ _ _ (by omega),
    get_size_store _ _ _ _ _ (by omega)]
  exact (get_size_set_size _ _ _).trans (Nat.mod_mod _ _)

theorem request_memory_from_os_ok (s : State) (size : Nat)
    (h : sbrk s ((size + sizeof_Block) % SIZE_MOD) ≠ none) :
    (request_memory_from_os s size).1 = s.brk ∧
      (request_memory_from_os s size).2.free_heap = s.free_heap ∧
      (request_memory_from_os s size).2.os_limit = s.os_limit ∧
      get_size (request_memory_from_os s size).2.mem s.brk = size % SIZE_MOD ∧
      (∀ x, x < s.brk → (request_memory_from_os s size).2.mem x = s.mem x) ∧
      ((size + sizeof_Block) % SIZE_MOD < 2 ^ 63 →
        (request_memory_from_os s size).2.brk = s.brk + (size + sizeof_Block) % SIZE_MOD) := by
  unfold request_memory_from_os
  cases hs : sbrk s ((size + sizeof_Block) % SIZE_MOD) with
  | none => exact absurd hs h
  | some p =>
    obtain ⟨a, t⟩ := p
    have ht : a = s.brk ∧ t.mem = s.mem ∧ t.free_heap = s.free_heap ∧
        t.os_limit = s.os_limit ∧
        ((size + sizeof_Block) % SIZE_MOD < 2 ^ 63 →
          t.brk = s.brk + (size + sizeof_Block) % SIZE_MOD) := by
      unfold sbrk at hs
      split_ifs at hs with h1 h2 h3
      · cases hs; exact ⟨rfl, rfl, rfl, rfl, fun _ => rfl⟩
      · cases hs; exact ⟨rfl, rfl, rfl, rfl, fun h' => absurd h' h1⟩
    obtain ⟨ha, hm, hh, ho, hb⟩ := ht
    subst ha
    refine ⟨rfl, hh, ho, ?_, ?_, hb⟩
    · simp only [set_next, set_is_free]
      rw [get_size_store _ _ _ _ _ (by omega), get_size_store _ _ _ _ _ (by omega)]
      exact get_size_set_size _ _ _
    · intro x hx
      simp only [set_next, set_is_free, set_size, store]
      rw [if_neg (by omega), if_neg (by omega), if_neg (by omega), hm]

theorem request_memory_from_os_fail (s : State) (size : Nat)
    (h : sbrk s ((size + sizeof_Block) % SIZE_MOD) = none) :
    request_memory_from_os s size = (0, s) := by
  unfold request_memory_from_os
  rw [h]

/-! ## Pools that have only served allocations -/

theorem heap_push_nil (s : State) (block : Nat) (h : s.free_heap = []) :
    (heap_push s block).free_heap = [block] := by
  simp [heap_push, heapify_up, h]

theorem ALIGN8_small (k : Nat) (hk : k + 32 ≤ 2 ^ 63) :
    k ≤ ALIGN8 k ∧ ALIGN8 k + 25 ≤ 2 ^ 63 := by
  have := ALIGN8_least k (by unfold SIZE_MOD; omega)
  omega

theorem init_memory_manager_small (total : Nat) (s0 s : State) (hb : s0.brk ≠ 0)
    (ht : sizeof_Block ≤ total) (ht2 : total < 2 ^ 63)
    (h : init_memory_manager s0 total = some s) : SmallIndex total s := by
  unfold init_memory_manager at h
  cases hs : sbrk s0 total with
  | none => rw [hs] at h; cases h
  | some p =>
    obtain ⟨a, t⟩ := p
    rw [hs] at h
    simp only [Option.some.injEq] at h
    have ht3 : a = s0.brk ∧ t.brk = s0.brk + total := by
      unfold sbrk at hs
      split_ifs at hs with h1
      cases hs; exact ⟨rfl, rfl⟩
    subst h
    refine ⟨?_, Or.inr ⟨a, heap_push_nil _ _ rfl, ?_⟩⟩
    · rw [heap_push_brk]; simp only []; rw [ht3.2]; omega
    · rw [heap_push_mem]
      simp only [set_next, set_is_free]
      rw [get_size_store _ _ _ _ _ (by omega), get_size_store _ _ _ _ _ (by omega),
        get_size_set_size, Nat.mod_mod]
      unfold SIZE_MOD sizeof_Block at *
      omega

theorem find_block_small (total : Nat) (s : State) (size : Nat) (hI : SmallIndex total s) :
    (find_block s.free_heap.length s size).2.free_heap = [] := by
  have hl := find_block_length size s.free_heap.length s (le_refl _)
  have : s.free_heap.length ≤ 1 := by
    rcases hI.2 with h | ⟨e, h, _⟩ <;> rw [h] <;> simp
  exact List.length_eq_zero.mp (by omega)

theorem my_malloc_grow (s : State) (n : Nat) (hn : n ≠ 0) (hn2 : n + 32 ≤ 2 ^ 63)
    (hb : s.brk ≠ 0)
    (hf : (find_block s.free_heap.length s (ALIGN8 n)).1 = 0)
    (he : (find_block s.free_heap.length s (ALIGN8 n)).2.free_heap = []) :
    ((my_malloc s n).1 = 0 ↔ sbrk s ((ALIGN8 n + sizeof_Block) % SIZE_MOD) = none) ∧
    (my_malloc s n).2.free_heap = [] ∧
    ((my_malloc s n).1 = 0 →
      (my_malloc s n).2.mem = s.mem ∧ (my_malloc s n).2.brk = s.brk) ∧
    ((my_malloc s n).1 ≠ 0 →
      (my_malloc s n).1 = s.brk + sizeof_Block ∧
      (my_malloc s n).2.brk = s.brk + ALIGN8 n + sizeof_Block ∧
      ∀ x, x < s.brk → (my_malloc s n).2.mem x = s.mem x) := by
  have hfr := find_block_frame (ALIGN8 n) s.free_heap.length s
  have hc := sbrk_none_congr (find_block s.free_heap.length s (ALIGN8 n)).2 s
    ((ALIGN8 n + sizeof_Block) % SIZE_MOD) hfr.2.1 hfr.2.2
  have hsz := ALIGN8_small n hn2
  have hmod : (ALIGN8 n + sizeof_Block) % SIZE_MOD = ALIGN8 n + sizeof_Block :=
    Nat.mod_eq_of_lt (by unfold SIZE_MOD sizeof_Block; omega)
  have hch : chosen_block s n =
      request_memory_from_os (find_block s.free_heap.length s (ALIGN8 n)).2 (ALIGN8 n) := by
    unfold chosen_block
    simp only []
    rw [if_pos hf]
  by_cases hs : sbrk s ((ALIGN8 n + sizeof_Block) % SIZE_MOD) = none
  · have hreq := request_memory_from_os_fail _ (ALIGN8 n) (hc.mpr hs)
    have e : my_malloc s n = (0, (find_block s.free_heap.length s (ALIGN8 n)).2) := by
      rw [my_malloc_of_chosen s n hn, hch, hreq, if_pos rfl]
    rw [e]
    exact ⟨⟨fun _ => hs, fun _ => rfl⟩, he, fun _ => ⟨hfr.1, hfr.2.1⟩, fun h => absurd rfl h⟩
  · obtain ⟨r1, r2, _, r4, r5, r6⟩ :=
      request_memory_from_os_ok _ (ALIGN8 n) (fun h => hs (hc.mp h))
    rw [hfr.2.1] at r1 r4 r5 r6
    rw [hmod] at r6
    have r6 := r6 (by unfold sizeof_Block; omega)
    rw [← hch] at r1 r2 r4 r5 r6
    have h0 : (chosen_block s n).1 ≠ 0 := by rw [r1]; exact hb
    have hns : ¬ get_size
        ({ (chosen_block s n).2 with
            mem := set_is_free (chosen_block s n).2.mem (chosen_block s n).1 0 } : State).mem
        (chosen_block s n).1 ≥ (ALIGN8 n + sizeof_Block + MIN_BLOCK_SIZE) % SIZE_MOD := by
      show ¬ get_size (set_is_free (chosen_block s n).2.mem (chosen_block s n).1 0)
        (chosen_block s n).1 ≥ (ALIGN8 n + sizeof_Block + MIN_BLOCK_SIZE) % SIZE_MOD
      unfold set_is_free
      rw [get_size_store _ _ _ _ _ (by omega), r1, r4,
        Nat.mod_eq_of_lt (by unfold SIZE_MOD; omega),
        Nat.mod_eq_of_lt (by unfold SIZE_MOD sizeof_Block MIN_BLOCK_SIZE; omega)]
      unfold sizeof_Block MIN_BLOCK_SIZE; omega
    have e := my_malloc_of_chosen s n hn
    rw [if_neg h0, split_block_no_split
      { (chosen_block s n).2 with
        mem := set_is_free (chosen_block s n).2.mem (chosen_block s n).1 0 }
      (chosen_block s n).1 (ALIGN8 n) hns] at e
    rw [e]
    refine ⟨⟨fun h => absurd h (by unfold sizeof_Block; simp), fun h => absurd h hs⟩, ?_,
      fun h => absurd h (by unfold sizeof_Block; simp), fun _ => ⟨by rw [r1], ?_, ?_⟩⟩
    · show (chosen_block s n).2.free_heap = []
      rw [r2]; exact he
    · show (chosen_block s n).2.brk = _
      rw [r6]; omega
    · intro x hx
      show memset (set_is_free (chosen_block s n).2.mem (chosen_block s n).1 0)
        ((chosen_block s n).1 + sizeof_Block) 0 (ALIGN8 n) x = s.mem x
      rw [r1]
      simp only [memset, set_is_free, store]
      rw [if_neg (by omega), if_neg (by omega), r5 x hx, hfr.1]

theorem my_malloc_small_step (total : Nat) (s : State) (k : Nat) (hk : k + 32 ≤ 2 ^ 63)
    (hI : SmallIndex total s) : SmallIndex total (my_malloc s k).2 := by
  by_cases hk0 : k = 0
  · subst hk0
    have e : my_malloc s 0 = (0, s) := by simp [my_malloc]
    rw [e]; exact hI
  have he := find_block_small total s (ALIGN8 k) hI
  have hfr := find_block_frame (ALIGN8 k) s.free_heap.length s
  have hsz := ALIGN8_small k hk
  by_cases hf : (find_block s.free_heap.length s (ALIGN8 k)).1 = 0
  · obtain ⟨_, g2, g3, g4⟩ := my_malloc_grow s k hk0 hk hI.1 hf he
    refine ⟨?_, Or.inl g2⟩
    by_cases h0 : (my_malloc s k).1 = 0
    · rw [(g3 h0).2]; exact hI.1
    · rw [(g4 h0).2.1]; omega
  · have hch : chosen_block s k = find_block s.free_heap.length s (ALIGN8 k) := by
      unfold chosen_block
      simp only []
      rw [if_neg hf]
    have hfound := find_block_found (ALIGN8 k) s.free_heap.length s
    rw [← hch] at he hfr hf hfound
    rcases hfound with h | ⟨hm, _, _⟩
    · exact absurd h hf
    have hbound : get_size s.mem (chosen_block s k).1 + sizeof_Block ≤ total := by
      rcases hI.2 with h | ⟨e, h, hs⟩
      · rw [h] at hm; exact absurd hm (List.not_mem_nil _)
      · rw [h] at hm; rw [List.mem_singleton.mp hm]; exact hs
    have e := my_malloc_of_chosen s k hk0
    rw [if_neg hf] at e
    rw [e]
    have hS : get_size
        ({ (chosen_block s k).2 with
            mem := set_is_free (chosen_block s k).2.mem (chosen_block s k).1 0 } : State).mem
        (chosen_block s k).1 = get_size s.mem (chosen_block s k).1 := by
      show get_size (set_is_free (chosen_block s k).2.mem (chosen_block s k).1 0)
        (chosen_block s k).1 = _
      unfold set_is_free
      rw [get_size_store _ _ _ _ _ (by omega), hfr.1]
    have hb := split_block_brk
      { (chosen_block s k).2 with
        mem := set_is_free (chosen_block s k).2.mem (chosen_block s k).1 0 }
      (chosen_block s k).1 (ALIGN8 k)
    refine ⟨?_, ?_⟩
    · show (split_block _ _ _).brk ≠ 0
      rw [hb.1]
      show (chosen_block s k).2.brk ≠ 0
      rw [hfr.2.1]; exact hI.1
    · show (split_block _ _ _).free_heap = [] ∨
        ∃ e, (split_block _ _ _).free_heap = [e] ∧
          get_size (memset (split_block _ _ _).mem _ 0 (ALIGN8 k)) e + sizeof_Block ≤ total
      by_cases hc : get_size
          ({ (chosen_block s k).2 with
              mem := set_is_free (chosen_block s k).2.mem (chosen_block s k).1 0 } : State).mem
          (chosen_block s k).1 ≥ (ALIGN8 k + sizeof_Block + MIN_BLOCK_SIZE) % SIZE_MOD
      · right
        have hp := split_block_heap _ _ _ hc
        have hd := split_target_apart (chosen_block s k).1 (ALIGN8 k)
          (by unfold SIZE_MOD sizeof_Block; omega)
        have hn := split_block_new_size _ _ _ hc hd
        rw [hS] at hn hc
        rw [Nat.mod_eq_of_lt (by unfold SIZE_MOD sizeof_Block MIN_BLOCK_SIZE; omega)] at hc
        have hS2 := get_size_lt s.mem (chosen_block s k).1
        refine ⟨((chosen_block s k).1 + sizeof_Block + ALIGN8 k) % SIZE_MOD, ?_, ?_⟩
        · have : ({ (chosen_block s k).2 with
              mem := set_is_free (chosen_block s k).2.mem (chosen_block s k).1 0 }
              : State).free_heap = [] := he
          rw [this] at hp
          exact List.perm_singleton.mp hp
        · rw [get_size_memset _ _ _ _ _
            (by unfold SIZE_MOD sizeof_Block MIN_BLOCK_SIZE at *; omega), hn]
          unfold SIZE_MOD sizeof_Block MIN_BLOCK_SIZE at *
          omega
      · left
        rw [split_block_no_split _ _ _ hc]
        exact he

theorem allocOnly_small (total : Nat) (ht : sizeof_Block ≤ total) (ht2 : total < 2 ^ 63)
    (s : State) (hr : AllocOnly total s) : SmallIndex total s := by
  induction hr with
  | init s0 s hb h => exact init_memory_manager_small total s0 s hb ht ht2 h
  | alloc s k _ hk ih => exact my_malloc_small_step total s k hk ih

/-- C4, counterexample: a fresh pool of 104 bytes, no release, request 200.
Where the operating system can extend the break, `my_malloc` returns the non-null
address `4224`; where it cannot, `my_malloc` returns `NULL`, and in both runs the
index, `[4096]` before the call, is empty after it. -/
theorem my_malloc_beyond_total_grows :
    104 < 200 ∧ pool104.free_heap = [4096] ∧ (my_malloc pool104 200).1 = 4224 ∧
      (my_malloc pool104 200).2.free_heap = [] ∧
      pool104_tight.free_heap = [4096] ∧ (my_malloc pool104_tight 200).1 = 0 ∧
      (my_malloc pool104_tight 200).2.free_heap = [] := by
  decide

/-- C4, amended: on a pool created by `init_memory_manager(total)`
(`24 ≤ total < 2 ^ 63`) that has only served `my_malloc` calls, a request `n`
with `total < n ≤ 2 ^ 63 - 32` finds no candidate in the index. It returns `NULL`
exactly when the `sbrk` request fails, and then memory and break are unchanged;
otherwise it returns the payload of a new block at the old break and changes no
byte below the old break. In both cases the index is left empty. -/
theorem my_malloc_beyond_total (total n : Nat) (s : State) (ht : sizeof_Block ≤ total)
    (ht2 : total < 2 ^ 63) (hr : AllocOnly total s) (hn : total < n)
    (hn2 : n + 32 ≤ 2 ^ 63) :
    ((my_malloc s n).1 = 0 ↔ sbrk s ((ALIGN8 n + sizeof_Block) % SIZE_MOD) = none) ∧
    (my_malloc s n).2.free_heap = [] ∧
    ((my_malloc s n).1 = 0 →
      (my_malloc s n).2.mem = s.mem ∧ (my_malloc s n).2.brk = s.brk) ∧
    ((my_malloc s n).1 ≠ 0 →
      (my_malloc s n).1 = s.brk + sizeof_Block ∧
      (my_malloc s n).2.brk = s.brk + ALIGN8 n + sizeof_Block ∧
      ∀ x, x < s.brk → (my_malloc s n).2.mem x = s.mem x) := by
  have hI := allocOnly_small total ht ht2 s hr
  have hsz := ALIGN8_small n hn2
  have hf : (find_block s.free_heap.length s (ALIGN8 n)).1 = 0 := by
    rcases find_block_found (ALIGN8 n) s.free_heap.length s with h | ⟨hm, hs, _⟩
    · exact h
    · rcases hI.2 with h | ⟨e, h, hb⟩
      · simp [h] at hm
      · have hm2 : (find_block s.free_heap.length s (ALIGN8 n)).1 = e := by
          simpa [h] using hm
        rw [hm2] at hs
        unfold sizeof_Block at hb
        omega
  exact my_malloc_grow s n (by omega) hn2 hI.1 hf (find_block_small total s (ALIGN8 n) hI)

/-- Witness for C4 amended: the fresh pool of 104 bytes and the request 200. -/
theorem my_malloc_beyond_total_witness :
    sizeof_Block ≤ 104 ∧ 104 < 2 ^ 63 ∧ AllocOnly 104 pool104 ∧ 104 < 200 ∧
    200 + 32 ≤ 2 ^ 63 ∧
    (((my_malloc pool104 200).1 = 0 ↔
        sbrk pool104 ((ALIGN8 200 + sizeof_Block) % SIZE_MOD) = none) ∧
    (my_malloc pool104 200).2.free_heap = [] ∧
    ((my_malloc pool104 200).1 = 0 →
      (my_malloc pool104 200).2.mem = pool104.mem ∧
      (my_malloc pool104 200).2.brk = pool104.brk) ∧
    ((my_malloc pool104 200).1 ≠ 0 →
      (my_malloc pool104 200).1 = pool104.brk + sizeof_Block ∧
      (my_malloc pool104 200).2.brk = pool104.brk + ALIGN8 200 + sizeof_Block ∧
      ∀ x, x < pool104.brk → (my_malloc pool104 200).2.mem x = pool104.mem x)) :=
  ⟨by decide, by decide, AllocOnly.init (boot 4096 8192) pool104 (by decide) rfl,
    by decide, by decide,
    my_malloc_beyond_total 104 200 pool104 (by decide) (by decide)
      (AllocOnly.init (boot 4096 8192) pool104 (by decide) rfl) (by decide) (by decide)⟩

/-! ## Coalescing -/

theorem merge_loop_stop (fuel : Nat) (m : Mem) (current : Nat)
    (h : get_next m current = 0 ∨ get_is_free m (get_next m current) = false) :
    merge_loop fuel m current = m := by
  cases fuel with
  | zero => rfl
  | succ fuel =>
    simp only [merge_loop]
    rw [if_neg]
    rintro ⟨h1, h2⟩
    rcases h with h | h
    · exact h1 h
    · rw [h] at h2; cases h2

theorem merge_loop_step (fuel : Nat) (m : Mem) (current : Nat) (hfuel : 0 < fuel)
    (hn : get_next m current ≠ 0) (hf : get_is_free m (get_next m current) = true)
    (hd : current + sizeof_Block ≤ get_next m current) :
    merge_loop fuel m current =
      merge_loop (fuel - 1)
        (set_next
          (set_size m current
            ((get_size m current + (sizeof_Block + get_size m (get_next m current)))
              % SIZE_MOD))
          current (get_next m (get_next m current)))
        current := by
  cases fuel with
  | zero => exact absurd hfuel (by decide)
  | succ fuel =>
    simp only [merge_loop, Nat.add_sub_cancel]
    rw [if_pos ⟨hn, hf⟩]
    unfold sizeof_Block at hd
    have e1 : get_next (set_size m current
        ((get_size m current + (sizeof_Block + get_size m (get_next m current)))
          % SIZE_MOD)) current = get_next m current := by
      unfold set_size
      exact get_next_store _ _ _ _ _ (by omega)
    rw [e1]
    have e2 : get_next (set_size m current
        ((get_size m current + (sizeof_Block + get_size m (get_next m current)))
          % SIZE_MOD)) (get_next m current) = get_next m (get_next m current) := by
      unfold set_size
      exact get_next_store _ _ _ _ _ (by omega)
    rw [e2]

/-- C9, counterexample: blocks `A = 4096` and `B = 4128` of `three_blocks` are
used, `A.next = B`, and `B.next = 4160` is used. After `my_free(A)` then
`my_free(B)` the index is `[4096, 4128]` and both blocks still have size `8`:
no indexed block has size `8 + 8 + 24`. -/
theorem free_lower_first_no_merge :
    get_next three_blocks.mem 4096 = 4128 ∧ get_next three_blocks.mem 4128 = 4160 ∧
      get_is_free three_blocks.mem 4096 = false ∧
      get_is_free three_blocks.mem 4128 = false ∧
      get_is_free three_blocks.mem 4160 = false ∧
      get_size three_blocks.mem 4096 = 8 ∧ get_size three_blocks.mem 4128 = 8 ∧
      (my_free (my_free three_blocks 4120) 4152).free_heap = [4096, 4128] ∧
      get_size (my_free (my_free three_blocks 4120) 4152).mem 4096 = 8 ∧
      get_size (my_free (my_free three_blocks 4120) 4152).mem 4128 = 8 := by
  decide

theorem my_free_of_block (s : State) (block : Nat) :
    my_free s (block + sizeof_Block) =
      heap_push
        { s with mem := merge_loop SIZE_MOD (set_is_free s.mem block 1) block } block := by
  unfold my_free
  rw [if_neg (by unfold sizeof_Block; omega)]
  simp only [Nat.add_sub_cancel]

theorem my_free_mem (s : State) (block : Nat) :
    (my_free s (block + sizeof_Block)).mem =
      merge_loop SIZE_MOD (set_is_free s.mem block 1) block := by
  rw [my_free_of_block, heap_push_mem]

theorem my_free_heap (s : State) (block : Nat) :
    (my_free s (block + sizeof_Block)).free_heap.Perm (block :: s.free_heap) := by
  rw [my_free_of_block]
  exact heap_push_perm _ _

theorem SIZE_MOD_pos : 0 < SIZE_MOD := by unfold SIZE_MOD; norm_num

/-- Memory after `my_free` of a block whose successor is absent or used. -/
theorem my_free_no_merge (s : State) (b : Nat)
    (hc : get_next s.mem b = 0 ∨
      (b + sizeof_Block ≤ get_next s.mem b ∧
        get_is_free s.mem (get_next s.mem b) = false)) :
    (my_free s (b + sizeof_Block)).mem = set_is_free s.mem b 1 := by
  rw [my_free_mem]
  have en : get_next (set_is_free s.mem b 1) b = get_next s.mem b := by
    unfold set_is_free
    exact get_next_store _ _ _ _ _ (by omega)
  apply merge_loop_stop
  rw [en]
  rcases hc with h | ⟨h1, h2⟩
  · exact Or.inl h
  · right
    unfold set_is_free
    unfold sizeof_Block at h1
    rw [get_is_free_store _ _ _ _ _ (by omega)]
    exact h2

/-- Memory after `my_free` of a block `a` whose successor `b` is free and is
itself followed by nothing or by a used block. -/
theorem my_free_merge_one (s : State) (a b : Nat)
    (hab : get_next s.mem a = b) (hd : a + sizeof_Block ≤ b)
    (hf : get_is_free s.mem b = true)
    (hc : get_next s.mem b = 0 ∨
      (b + sizeof_Block ≤ get_next s.mem b ∧
        get_is_free s.mem (get_next s.mem b) = false)) :
    (my_free s (a + sizeof_Block)).mem =
      set_next
        (set_size (set_is_free s.mem a 1) a
          ((get_size s.mem a + (sizeof_Block + get_size s.mem b)) % SIZE_MOD))
        a (get_next s.mem b) := by
  rw [my_free_mem]
  unfold sizeof_Block at hd hc
  have e1 : get_next (set_is_free s.mem a 1) a = b := by
    unfold set_is_free
    rw [get_next_store _ _ _ _ _ (by omega)]; exact hab
  have e2 : get_is_free (set_is_free s.mem a 1) b = true := by
    unfold set_is_free
    rw [get_is_free_store _ _ _ _ _ (by omega)]; exact hf
  have e3 : get_size (set_is_free s.mem a 1) a = get_size s.mem a := by
    unfold set_is_free
    exact get_size_store _ _ _ _ _ (by omega)
  have e4 : get_size (set_is_free s.mem a 1) b = get_size s.mem b := by
    unfold set_is_free
    exact get_size_store _ _ _ _ _ (by omega)
  have e5 : get_next (set_is_free s.mem a 1) b = get_next s.mem b := by
    unfold set_is_free
    exact get_next_store _ _ _ _ _ (by omega)
  have hb0 : b ≠ 0 := by omega
  rw [merge_loop_step SIZE_MOD _ a SIZE_MOD_pos (by rw [e1]; exact hb0)
    (by rw [e1]; exact e2) (by rw [e1]; unfold sizeof_Block; exact hd)]
  rw [e1, e3, e4, e5]
  apply merge_loop_stop
  rw [get_next_set_next, Nat.mod_eq_of_lt (get_next_lt _ _)]
  rcases hc with h | ⟨h1, h2⟩
  · exact Or.inl h
  · right
    unfold set_next set_size set_is_free
    rw [get_is_free_store _ _ _ _ _ (by omega), get_is_free_store _ _ _ _ _ (by omega),
      get_is_free_store _ _ _ _ _ (by omega)]
    exact h2

/-- C9, amended: let `A.next = B` with `B` at `A + sizeof(Block) + A.size`, let
`B.next` be `NULL` or a used block at `B + sizeof(Block) + B.size`, and let
`A.size + sizeof(Block) + B.size < 2 ^ 64`. After `my_free(B)` followed by
`my_free(A)`, block `A` is in the index, is marked free, has size
`A.size + B.size + sizeof(Block)` and is linked to the former successor of `B`. -/
theorem free_higher_then_lower_merges (s : State) (a b : Nat)
    (hab : get_next s.mem a = b) (hadj : b = a + sizeof_Block + get_size s.mem a)
    (hc : get_next s.mem b = 0 ∨
      (get_next s.mem b = b + sizeof_Block + get_size s.mem b ∧
        get_is_free s.mem (get_next s.mem b) = false))
    (hov : get_size s.mem a + sizeof_Block + get_size s.mem b < SIZE_MOD) :
    a ∈ (my_free (my_free s (b + sizeof_Block)) (a + sizeof_Block)).free_heap ∧
    get_is_free (my_free (my_free s (b + sizeof_Block)) (a + sizeof_Block)).mem a = true ∧
    get_size (my_free (my_free s (b + sizeof_Block)) (a + sizeof_Block)).mem a =
      get_size s.mem a + get_size s.mem b + sizeof_Block ∧
    get_next (my_free (my_free s (b + sizeof_Block)) (a + sizeof_Block)).mem a =
      get_next s.mem b := by
  have hd : a + sizeof_Block ≤ b := by omega
  have hc1 : get_next s.mem b = 0 ∨
      (b + sizeof_Block ≤ get_next s.mem b ∧
        get_is_free s.mem (get_next s.mem b) = false) := by
    rcases hc with h | ⟨h1, h2⟩
    · exact Or.inl h
    · exact Or.inr ⟨by omega, h2⟩
  have hm1 := my_free_no_merge s b hc1
  have hp2 := my_free_heap (my_free s (b + sizeof_Block)) a
  unfold sizeof_Block at hd hc1
  have f1 : get_next (my_free s (b + sizeof_Block)).mem a = b := by
    rw [hm1]; unfold set_is_free
    rw [get_next_store _ _ _ _ _ (by omega)]; exact hab
  have f2 : get_is_free (my_free s (b + sizeof_Block)).mem b = true := by
    rw [hm1, get_is_free_set_is_free]; rfl
  have f3 : get_next (my_free s (b + sizeof_Block)).mem b = get_next s.mem b := by
    rw [hm1]; unfold set_is_free
    exact get_next_store _ _ _ _ _ (by omega)
  have f4 : get_size (my_free s (b + sizeof_Block)).mem a = get_size s.mem a := by
    rw [hm1]; unfold set_is_free
    exact get_size_store _ _ _ _ _ (by omega)
  have f5 : get_size (my_free s (b + sizeof_Block)).mem b = get_size s.mem b := by
    rw [hm1]; unfold set_is_free
    exact get_size_store _ _ _ _ _ (by omega)
  have hc2 : get_next (my_free s (b + sizeof_Block)).mem b = 0 ∨
      (b + sizeof_Block ≤ get_next (my_free s (b + sizeof_Block)).mem b ∧
        get_is_free (my_free s (b + sizeof_Block)).mem
          (get_next (my_free s (b + sizeof_Block)).mem b) = false) := by
    rw [f3]
    rcases hc1 with h | ⟨h1, h2⟩
    · exact Or.inl h
    · refine Or.inr ⟨by unfold sizeof_Block; exact h1, ?_⟩
      rw [hm1]; unfold set_is_free
      rw [get_is_free_store _ _ _ _ _ (by omega)]; exact h2
  have hm2 := my_free_merge_one (my_free s (b + sizeof_Block)) a b f1
    (by unfold sizeof_Block; exact hd) f2 hc2
  rw [f3, f4, f5] at hm2
  refine ⟨hp2.symm.subset (List.mem_cons_self _ _), ?_, ?_, ?_⟩
  · rw [hm2]; unfold set_next set_size
    rw [get_is_free_store _ _ _ _ _ (by omega), get_is_free_store _ _ _ _ _ (by omega),
      get_is_free_set_is_free]
    rfl
  · rw [hm2]; unfold set_next
    rw [get_size_store _ _ _ _ _ (by omega), get_size_set_size, Nat.mod_mod,
      Nat.mod_eq_of_lt (by omega)]
    omega
  · rw [hm2, get_next_set_next]
    exact Nat.mod_eq_of_lt (get_next_lt _ _)

/-- Witness for C9 amended: blocks `4096` and `4128` of `three_blocks`. -/
theorem free_higher_then_lower_merges_witness :
    get_next three_blocks.mem 4096 = 4128 ∧
    4128 = 4096 + sizeof_Block + get_size three_blocks.mem 4096 ∧
    (get_next three_blocks.mem 4128 = 0 ∨
      (get_next three_blocks.mem 4128 = 4128 + sizeof_Block + get_size three_blocks.mem 4128 ∧
        get_is_free three_blocks.mem (get_next three_blocks.mem 4128) = false)) ∧
    get_size three_blocks.mem 4096 + sizeof_Block + get_size three_blocks.mem 4128
      < SIZE_MOD ∧
    (4096 ∈ (my_free (my_free three_blocks (4128 + sizeof_Block))
        (4096 + sizeof_Block)).free_heap ∧
    get_is_free (my_free (my_free three_blocks (4128 + sizeof_Block))
        (4096 + sizeof_Block)).mem 4096 = true ∧
    get_size (my_free (my_free three_blocks (4128 + sizeof_Block))
        (4096 + sizeof_Block)).mem 4096 =
      get_size three_blocks.mem 4096 + get_size three_blocks.mem 4128 + sizeof_Block ∧
    get_next (my_free (my_free three_blocks (4128 + sizeof_Block))
        (4096 + sizeof_Block)).mem 4096 = get_next three_blocks.mem 4128) :=
  ⟨by decide, by decide, by decide, by decide,
    free_higher_then_lower_merges three_blocks 4096 4128 (by decide) (by decide)
      (by decide) (by decide)⟩

/-! ## Headers and byte frames -/

theorem header_congr (m m2 : Mem) (b : Nat)
    (h : ∀ x, b ≤ x → x < b + sizeof_Block → m2 x = m x) :
    get_size m2 b = get_size m b ∧ get_is_free m2 b = get_is_free m b ∧
      get_next m2 b = get_next m b := by
  unfold sizeof_Block at h
  refine ⟨?_, ?_, ?_⟩
  · exact load_congr _ _ _ _ (fun x h1 h2 => h x h1 (by omega))
  · unfold get_is_free
    rw [load_congr m2 m 4 (b + 8) (fun x h1 h2 => h x (by omega) (by omega))]
  · exact load_congr _ _ _ _ (fun x h1 h2 => h x (by omega) (by omega))

theorem FreeRun_congr (m m2 : Mem) : ∀ (F : List Nat) (t : Nat),
    (∀ f ∈ F, ∀ x, f ≤ x → x < f + sizeof_Block → m2 x = m x) →
    FreeRun m F t → FreeRun m2 F t := by
  intro F
  induction F with
  | nil => intro t _ _; trivial
  | cons f rest ih =>
    intro t h hr
    obtain ⟨h1, h2, h3⟩ := hr
    obtain ⟨_, e2, e3⟩ := header_congr m m2 f (h f (List.mem_cons_self _ _))
    exact ⟨e2.trans h1, e3.trans h2,
      ih t (fun g hg => h g (List.mem_cons_of_mem _ hg)) h3⟩

theorem absorbed_congr (m m2 : Mem) : ∀ (F : List Nat),
    (∀ f ∈ F, ∀ x, f ≤ x → x < f + sizeof_Block → m2 x = m x) →
    absorbed m2 F = absorbed m F := by
  intro F
  induction F with
  | nil => intro _; simp [absorbed]
  | cons f rest ih =>
    intro h
    have e := (header_congr m m2 f (h f (List.mem_cons_self _ _))).1
    have := ih (fun g hg => h g (List.mem_cons_of_mem _ hg))
    simp only [absorbed, List.map_cons, List.sum_cons] at this ⊢
    rw [e, this]

theorem merge_loop_run : ∀ (F : List Nat) (fuel : Nat) (m : Mem) (x t : Nat),
    F.length < fuel →
    get_next m x = (F ++ [t]).headD 0 →
    (∀ f ∈ F, x + sizeof_Block ≤ f) →
    FreeRun m F t →
    (t = 0 ∨ (x + sizeof_Block ≤ t ∧ get_is_free m t = false)) →
    get_size (merge_loop fuel m x) x = (get_size m x + absorbed m F) % SIZE_MOD ∧
    get_next (merge_loop fuel m x) x = t ∧
    (∀ a, ¬ (x ≤ a ∧ a < x + 8) → ¬ (x + 16 ≤ a ∧ a < x + 24) →
      merge_loop fuel m x a = m a) := by
  intro F
  induction F with
  | nil =>
    intro fuel m x t _ hn _ _ ht
    have hn2 : get_next m x = t := by simpa using hn
    have hs : merge_loop fuel m x = m := by
      apply merge_loop_stop
      rw [hn2]
      rcases ht with h | ⟨_, h⟩
      · exact Or.inl h
      · exact Or.inr h
    rw [hs]
    refine ⟨?_, hn2, fun _ _ _ => rfl⟩
    simp only [absorbed, List.map_nil, List.sum_nil, Nat.add_zero]
    exact (Nat.mod_eq_of_lt (get_size_lt m x)).symm
  | cons f rest ih =>
    intro fuel m x t hfuel hn hord hrun ht
    have hn2 : get_next m x = f := by simpa using hn
    obtain ⟨hf1, hf2, hf3⟩ := hrun
    have hxf : x + sizeof_Block ≤ f := hord f (List.mem_cons_self _ _)
    have hstep := merge_loop_step fuel m x (by omega) (by rw [hn2]; unfold sizeof_Block at hxf; omega)
      (by rw [hn2]; exact hf1) (by rw [hn2]; exact hxf)
    rw [hn2] at hstep
    have hframe : ∀ a, ¬ (x ≤ a ∧ a < x + 8) → ¬ (x + 16 ≤ a ∧ a < x + 24) →
        set_next (set_size m x ((get_size m x + (sizeof_Block + get_size m f)) % SIZE_MOD))
          x (get_next m f) a = m a := by
      intro a h1 h2
      simp only [set_next, set_size, store]
      rw [if_neg (by omega), if_neg (by omega)]
    have hout : ∀ g, x + sizeof_Block ≤ g → ∀ a, g ≤ a → a < g + sizeof_Block →
        set_next (set_size m x ((get_size m x + (sizeof_Block + get_size m f)) % SIZE_MOD))
          x (get_next m f) a = m a := by
      intro g hg a h1 h2
      unfold sizeof_Block at hg h2
      exact hframe a (by omega) (by omega)
    have hrest : ∀ g ∈ rest, x + sizeof_Block ≤ g :=
      fun g hg => hord g (List.mem_cons_of_mem _ hg)
    have ht2 : t = 0 ∨ (x + sizeof_Block ≤ t ∧
        get_is_free (set_next
          (set_size m x ((get_size m x + (sizeof_Block + get_size m f)) % SIZE_MOD))
          x (get_next m f)) t = false) := by
      rcases ht with h | ⟨h1, h2⟩
      · exact Or.inl h
      · exact Or.inr ⟨h1, ((header_congr m _ t (hout t h1)).2.1).trans h2⟩
    obtain ⟨r1, r2, r3⟩ := ih (fuel - 1) _ x t
      (by simp only [List.length_cons] at hfuel; omega)
      (by rw [get_next_set_next, Nat.mod_eq_of_lt (get_next_lt _ _)]; exact hf2)
      hrest
      (FreeRun_congr m _ rest t (fun g hg => hout g (hrest g hg)) hf3)
      ht2
    rw [hstep]
    refine ⟨?_, r2, fun a h1 h2 => (r3 a h1 h2).trans (hframe a h1 h2)⟩
    rw [r1, absorbed_congr m _ rest (fun g hg => hout g (hrest g hg))]
    have e : get_size (set_next
        (set_size m x ((get_size m x + (sizeof_Block + get_size m f)) % SIZE_MOD))
        x (get_next m f)) x = (get_size m x + (sizeof_Block + get_size m f)) % SIZE_MOD := by
      unfold set_next
      rw [get_size_store _ _ _ _ _ (by omega), get_size_set_size, Nat.mod_mod]
    rw [e]
    simp only [absorbed, List.map_cons, List.sum_cons]
    rw [Nat.mod_add_mod, Nat.add_assoc]

theorem split_block_fields (s : State) (block size : Nat)
    (hc : get_size s.mem block ≥ (size + sizeof_Block + MIN_BLOCK_SIZE) % SIZE_MOD)
    (hnb : block + sizeof_Block + size < SIZE_MOD) :
    get_size (split_block s block size).mem block = size % SIZE_MOD ∧
    get_next (split_block s block size).mem block = block + sizeof_Block + size ∧
    get_is_free (split_block s block size).mem (block + sizeof_Block + size) = true ∧
    get_size (split_block s block size).mem (block + sizeof_Block + size) =
      (get_size s.mem block + SIZE_MOD - size + SIZE_MOD - sizeof_Block) % SIZE_MOD ∧
    get_next (split_block s block size).mem (block + sizeof_Block + size) =
      get_next s.mem block ∧
    (∀ a, ¬ (block ≤ a ∧ a < block + 8) → ¬ (block + 16 ≤ a ∧ a < block + 24) →
      ¬ (block + sizeof_Block + size ≤ a ∧ a < block + sizeof_Block + size + sizeof_Block) →
      (split_block s block size).mem a = s.mem a) := by
  have hsize := split_block_new_size s block size hc (split_target_apart_of_lt _ _ hnb)
  rw [split_target_of_lt block size hnb] at hsize
  refine ⟨?_, ?_, ?_, hsize, ?_, ?_⟩
  all_goals unfold split_block
  all_goals rw [if_pos hc, heap_push_mem]
  all_goals simp only []
  all_goals rw [split_target_of_lt block size hnb]
  all_goals unfold sizeof_Block at *
  · unfold set_next
    rw [get_size_store _ _ _ _ _ (by omega), get_size_set_size]
  · rw [get_next_set_next]
    exact Nat.mod_eq_of_lt hnb
  · unfold set_next set_size
    rw [get_is_free_store _ _ _ _ _ (by omega), get_is_free_store _ _ _ _ _ (by omega),
      get_is_free_store _ _ _ _ _ (by omega), get_is_free_set_is_free]
    rfl
  · have e : ∀ (m : Mem) (v : Nat),
        get_next (set_next (set_size m block size) block v) (block + 24 + size) =
          get_next m (block + 24 + size) := by
      intro m v
      unfold set_next set_size
      rw [get_next_store _ _ _ _ _ (by omega), get_next_store _ _ _ _ _ (by omega)]
    rw [e, get_next_set_next]
    unfold set_is_free set_size
    rw [get_next_store _ _ _ _ _ (by omega), get_next_store _ _ _ _ _ (by omega)]
    exact Nat.mod_eq_of_lt (get_next_lt _ _)
  · intro a h1 h2 h3
    simp only [set_next, set_size, set_is_free, store]
    rw [if_neg (by omega), if_neg (by omega), if_neg (by omega), if_neg (by omega),
      if_neg (by omega)]

/-! ## An allocation served from the index -/

theorem my_malloc_served_eq (s : State) (n X : Nat) (hn : n ≠ 0)
    (hX : (find_block s.free_heap.length s (ALIGN8 n)).1 = X) (hX0 : X ≠ 0) :
    my_malloc s n =
      (X + sizeof_Block,
        { split_block
            { (find_block s.free_heap.length s (ALIGN8 n)).2 with
              mem := set_is_free s.mem X 0 } X (ALIGN8 n) with
          mem := memset
            (split_block
              { (find_block s.free_heap.length s (ALIGN8 n)).2 with
                mem := set_is_free s.mem X 0 } X (ALIGN8 n)).mem
            (X + sizeof_Block) 0 (ALIGN8 n) }) := by
  have hfr := find_block_frame (ALIGN8 n) s.free_heap.length s
  have hch : chosen_block s n = find_block s.free_heap.length s (ALIGN8 n) := by
    unfold chosen_block
    simp only []
    rw [if_neg (by rw [hX]; exact hX0)]
  rw [my_malloc_of_chosen s n hn, hch, hX, if_neg hX0, hfr.1]

theorem Linked_order (m : Mem) (t : Nat) : ∀ (rest : List Nat) (x : Nat),
    Linked m (x :: rest) t → ∀ z ∈ rest, x + sizeof_Block + get_size m x ≤ z := by
  intro rest
  induction rest with
  | nil => intro x _ z hz; exact absurd hz (List.not_mem_nil z)
  | cons y rest ih =>
    intro x h z hz
    obtain ⟨_, h2, h3⟩ := h
    rcases List.mem_cons.mp hz with e | e
    · rw [e, h2]
    · have := ih y h3 z e
      omega

theorem Linked_congr (m m2 : Mem) (t : Nat) : ∀ (L : List Nat),
    (∀ b ∈ L, ∀ a, b ≤ a → a < b + sizeof_Block → m2 a = m a) →
    Linked m L t → Linked m2 L t := by
  intro L
  induction L with
  | nil => intro _ _; trivial
  | cons x rest ih =>
    intro hag h
    obtain ⟨e1, _, e3⟩ := header_congr m m2 x (hag x (List.mem_cons_self _ _))
    cases rest with
    | nil => exact e3.trans h
    | cons y rest =>
      obtain ⟨h1, h2, h3⟩ := h
      exact ⟨e3.trans h1, by rw [e1]; exact h2,
        ih (fun b hb => hag b (List.mem_cons_of_mem _ hb)) h3⟩

theorem Linked_run (m : Mem) (rest : List Nat) : ∀ (F : List Nat) (x : Nat),
    Linked m (x :: (F ++ rest)) 0 → (∀ f ∈ F, get_is_free m f = true) →
    FreeRun m F (rest.headD 0) ∧
    get_next m x = (F ++ [rest.headD 0]).headD 0 ∧
    (rest ≠ [] → rest.headD 0 = x + sizeof_Block + get_size m x + absorbed m F) ∧
    (∃ b ∈ x :: F,
      b + sizeof_Block + get_size m b = x + sizeof_Block + get_size m x + absorbed m F) := by
  intro F
  induction F with
  | nil =>
    intro x h _
    refine ⟨trivial, ?_, ?_, ?_⟩
    · cases rest with
      | nil => exact h
      | cons r rest => exact h.1
    · intro hr
      cases rest with
      | nil => exact absurd rfl hr
      | cons r rest => simpa [absorbed] using h.2.1
    · exact ⟨x, List.mem_singleton.mpr rfl, by simp [absorbed]⟩
  | cons f F ih =>
    intro x h hfree
    obtain ⟨h1, h2, h3⟩ := h
    obtain ⟨i1, i2, i3, i4⟩ := ih f h3 (fun g hg => hfree g (List.mem_cons_of_mem _ hg))
    have hab : absorbed m (f :: F) = sizeof_Block + get_size m f + absorbed m F := by
      simp [absorbed]
    refine ⟨⟨hfree f (List.mem_cons_self _ _), i2, i1⟩, by simpa using h1, ?_, ?_⟩
    · intro hr
      rw [i3 hr, hab, h2]; omega
    · obtain ⟨b, hb, hbe⟩ := i4
      exact ⟨b, List.mem_cons_of_mem _ hb, by rw [hab, hbe, h2]; omega⟩

/-! ## Free capacity -/

theorem absorbed_length (m : Mem) : ∀ (F : List Nat),
    sizeof_Block * F.length ≤ absorbed m F := by
  intro F
  induction F with
  | nil => simp [absorbed]
  | cons f rest ih =>
    simp only [absorbed, List.map_cons, List.sum_cons, List.length_cons] at ih ⊢
    rw [Nat.mul_add]
    omega

/-- Effect of `my_free` on a block `x` followed by the free blocks `F` and then
by `t`, which is `NULL` or a used block. -/
theorem my_free_run (s : State) (x : Nat) (F : List Nat) (t : Nat)
    (hlen : F.length < SIZE_MOD)
    (hnext : get_next s.mem x = (F ++ [t]).headD 0)
    (hord : ∀ f ∈ F, x + sizeof_Block ≤ f)
    (hrun : FreeRun s.mem F t)
    (ht : t = 0 ∨ (x + sizeof_Block ≤ t ∧ get_is_free s.mem t = false)) :
    get_is_free (my_free s (x + sizeof_Block)).mem x = true ∧
    get_size (my_free s (x + sizeof_Block)).mem x =
      (get_size s.mem x + absorbed s.mem F) % SIZE_MOD ∧
    get_next (my_free s (x + sizeof_Block)).mem x = t ∧
    (∀ a, a < x ∨ x + sizeof_Block ≤ a →
      (my_free s (x + sizeof_Block)).mem a = s.mem a) := by
  rw [my_free_mem]
  have hframe : ∀ a, ¬ (x + 8 ≤ a ∧ a < x + 12) → set_is_free s.mem x 1 a = s.mem a := by
    intro a h
    simp only [set_is_free, store]
    rw [if_neg (by omega)]
  have hout : ∀ g, x + sizeof_Block ≤ g → ∀ a, g ≤ a → a < g + sizeof_Block →
      set_is_free s.mem x 1 a = s.mem a := by
    intro g hg a h1 h2
    unfold sizeof_Block at hg
    exact hframe a (by omega)
  have e1 : get_size (set_is_free s.mem x 1) x = get_size s.mem x := by
    unfold set_is_free
    exact get_size_store _ _ _ _ _ (by omega)
  have e2 : get_next (set_is_free s.mem x 1) x = get_next s.mem x := by
    unfold set_is_free
    exact get_next_store _ _ _ _ _ (by omega)
  have ht2 : t = 0 ∨ (x + sizeof_Block ≤ t ∧ get_is_free (set_is_free s.mem x 1) t = false) := by
    rcases ht with h | ⟨h1, h2⟩
    · exact Or.inl h
    · exact Or.inr ⟨h1, ((header_congr s.mem _ t (hout t h1)).2.1).trans h2⟩
  obtain ⟨r1, r2, r3⟩ := merge_loop_run F SIZE_MOD (set_is_free s.mem x 1) x t hlen
    (e2.trans hnext) hord
    (FreeRun_congr s.mem _ F t (fun g hg => hout g (hord g hg)) hrun) ht2
  rw [e1, absorbed_congr s.mem _ F (fun g hg => hout g (hord g hg))] at r1
  refine ⟨?_, r1, r2, ?_⟩
  · have : get_is_free (merge_loop SIZE_MOD (set_is_free s.mem x 1) x) x =
        get_is_free (set_is_free s.mem x 1) x := by
      unfold get_is_free
      rw [load_congr _ (set_is_free s.mem x 1) 4 (x + 8)
        (fun a h1 h2 => r3 a (by omega) (by omega))]
    rw [this, get_is_free_set_is_free]; rfl
  · intro a ha
    unfold sizeof_Block at ha
    rw [r3 a (by omega) (by omega), hframe a (by omega)]

/-- C12, evaluated on the code: right after `my_free(b)` has absorbed the free
successor `4160` into block `4128` (whose size becomes `48` and whose `next`
becomes `NULL`), the index is `[4160, 4128]`: it still refers to the absorbed
block, which lies inside the payload of `4128` and is not a block of the chain
`4096, 4128`. -/
theorem merged_remainder_still_indexed :
    (my_malloc (my_malloc pool104 8).2 8).1 = 4152 ∧
      get_next (my_malloc (my_malloc pool104 8).2 8).2.mem 4128 = 4160 ∧
      get_is_free (my_malloc (my_malloc pool104 8).2 8).2.mem 4160 = true ∧
      merged_remainder.free_heap = [4160, 4128] ∧
      Linked merged_remainder.mem [4096, 4128] 0 ∧
      get_size merged_remainder.mem 4128 = 48 ∧
      4128 + sizeof_Block ≤ 4160 ∧ 4160 < 4128 + sizeof_Block + 48 := by
  decide

/-! ## Release -/

/-- C13: let the successors of block `b` in the chain be the free blocks `F`,
followed by `rest`, which is empty or begins with a used block. `my_free` of the
payload address of `b` leaves `b` marked free with size
`old size + Σ (sizeof(Block) + f.size)` over `F`, links it to the first block of
`rest` (or to `NULL`), pushes `b` onto the index, and changes no byte outside
the header of `b`, hence the size and free flag of no other block. -/
theorem my_free_absorbs_free_successors (s : State) (b : Nat) (F rest : List Nat)
    (hL : Linked s.mem (b :: (F ++ rest)) 0)
    (hF : ∀ f ∈ F, get_is_free s.mem f = true)
    (hrest : ∀ r, rest.head? = some r → get_is_free s.mem r = false)
    (hbound : ∀ x ∈ b :: F, x + sizeof_Block + get_size s.mem x < SIZE_MOD) :
    get_is_free (my_free s (b + sizeof_Block)).mem b = true ∧
    get_size (my_free s (b + sizeof_Block)).mem b = get_size s.mem b + absorbed s.mem F ∧
    get_next (my_free s (b + sizeof_Block)).mem b = rest.headD 0 ∧
    (my_free s (b + sizeof_Block)).free_heap.Perm (b :: s.free_heap) ∧
    (∀ a, a < b ∨ b + sizeof_Block ≤ a → (my_free s (b + sizeof_Block)).mem a = s.mem a) ∧
    (∀ c, c + sizeof_Block ≤ b ∨ b + sizeof_Block ≤ c →
      get_size (my_free s (b + sizeof_Block)).mem c = get_size s.mem c ∧
      get_is_free (my_free s (b + sizeof_Block)).mem c = get_is_free s.mem c) := by
  obtain ⟨run, hnx, _, ⟨bl, hbl, hble⟩⟩ := Linked_run s.mem rest F b hL hF
  have htot : b + sizeof_Block + get_size s.mem b + absorbed s.mem F < SIZE_MOD := by
    have := hbound bl hbl; omega
  have hlen := absorbed_length s.mem F
  have hord := Linked_order s.mem 0 (F ++ rest) b hL
  have ht : rest.headD 0 = 0 ∨ (b + sizeof_Block ≤ rest.headD 0 ∧
      get_is_free s.mem (rest.headD 0) = false) := by
    cases rest with
    | nil => exact Or.inl rfl
    | cons r rest' =>
      right
      have hr := hord r (List.mem_append_right _ (List.mem_cons_self _ _))
      exact ⟨by simp only [List.headD_cons]; omega, hrest r rfl⟩
  obtain ⟨b1, b2, b3, b4⟩ := my_free_run s b F (rest.headD 0)
    (by unfold sizeof_Block SIZE_MOD at *; omega) hnx
    (fun f hf => by have := hord f (List.mem_append_left _ hf); omega) run ht
  rw [Nat.mod_eq_of_lt (by omega)] at b2
  refine ⟨b1, b2, b3, my_free_heap s b, b4, fun c hc => ?_⟩
  have := header_congr s.mem (my_free s (b + sizeof_Block)).mem c
    (fun a h1 h2 => b4 a (by omega))
  exact ⟨this.1, this.2.1⟩

/-- Witness for C13: in `four_blocks` after `my_free(4184)`, block `4128` is
followed by the free block `4160` and then by the used block `4192`. -/
theorem my_free_absorbs_free_successors_witness :
    Linked (my_free four_blocks 4184).mem (4128 :: ([4160] ++ [4192, 4224])) 0 ∧
    (∀ f ∈ [4160], get_is_free (my_free four_blocks 4184).mem f = true) ∧
    (∀ r, [4192, 4224].head? = some r →
      get_is_free (my_free four_blocks 4184).mem r = false) ∧
    (∀ x ∈ 4128 :: [4160],
      x + sizeof_Block + get_size (my_free four_blocks 4184).mem x < SIZE_MOD) ∧
    (get_is_free (my_free (my_free four_blocks 4184) (4128 + sizeof_Block)).mem 4128 = true ∧
    get_size (my_free (my_free four_blocks 4184) (4128 + sizeof_Block)).mem 4128 =
      get_size (my_free four_blocks 4184).mem 4128
        + absorbed (my_free four_blocks 4184).mem [4160] ∧
    get_next (my_free (my_free four_blocks 4184) (4128 + sizeof_Block)).mem 4128 =
      [4192, 4224].headD 0 ∧
    (my_free (my_free four_blocks 4184) (4128 + sizeof_Block)).free_heap.Perm
      (4128 :: (my_free four_blocks 4184).free_heap) ∧
    (∀ a, a < 4128 ∨ 4128 + sizeof_Block ≤ a →
      (my_free (my_free four_blocks 4184) (4128 + sizeof_Block)).mem a =
        (my_free four_blocks 4184).mem a) ∧
    (∀ c, c + sizeof_Block ≤ 4128 ∨ 4128 + sizeof_Block ≤ c →
      get_size (my_free (my_free four_blocks 4184) (4128 + sizeof_Block)).mem c =
        get_size (my_free four_blocks 4184).mem c ∧
      get_is_free (my_free (my_free four_blocks 4184) (4128 + sizeof_Block)).mem c =
        get_is_free (my_free four_blocks 4184).mem c)) :=
  ⟨by decide, by decide, fun r h => by cases h; decide, by decide,
    my_free_absorbs_free_successors (my_free four_blocks 4184) 4128 [4160] [4192, 4224]
      (by decide) (by decide) (fun r h => by cases h; decide) (by decide)⟩

/-! ## Split -/

/-- C16: for a block `b` (16 ≤ address, extent inside the 64-bit address space)
and a request `size ≤ b.size`: if `b.size ≥ size + sizeof(Block) + 16`,
`split_block` sets `b.size = size`, writes at `b + sizeof(Block) + size` a free
block of size `old b.size - size - sizeof(Block)` whose `next` is the old
`b.next`, makes it `b.next`, pushes it onto the index and changes no other byte;
otherwise the state is unchanged. -/
theorem split_block_spec (s : State) (b size : Nat)
    (hfit : size ≤ get_size s.mem b) (hb : MIN_BLOCK_SIZE ≤ b)
    (hext : b + sizeof_Block + get_size s.mem b < SIZE_MOD) :
    (size + sizeof_Block + MIN_BLOCK_SIZE ≤ get_size s.mem b →
      get_size (split_block s b size).mem b = size ∧
      get_next (split_block s b size).mem b = b + sizeof_Block + size ∧
      get_is_free (split_block s b size).mem b = get_is_free s.mem b ∧
      get_is_free (split_block s b size).mem (b + sizeof_Block + size) = true ∧
      get_size (split_block s b size).mem (b + sizeof_Block + size) =
        get_size s.mem b - size - sizeof_Block ∧
      get_next (split_block s b size).mem (b + sizeof_Block + size) = get_next s.mem b ∧
      size + sizeof_Block + get_size (split_block s b size).mem (b + sizeof_Block + size) =
        get_size s.mem b ∧
      (split_block s b size).free_heap.Perm ((b + sizeof_Block + size) :: s.free_heap) ∧
      (∀ a, a < b ∨ b + sizeof_Block + get_size s.mem b ≤ a →
        (split_block s b size).mem a = s.mem a)) ∧
    (get_size s.mem b < size + sizeof_Block + MIN_BLOCK_SIZE → split_block s b size = s) := by
  have hmod : (size + sizeof_Block + MIN_BLOCK_SIZE) % SIZE_MOD =
      size + sizeof_Block + MIN_BLOCK_SIZE :=
    Nat.mod_eq_of_lt (by unfold sizeof_Block MIN_BLOCK_SIZE at *; omega)
  constructor
  · intro h
    have hc : get_size s.mem b ≥ (size + sizeof_Block + MIN_BLOCK_SIZE) % SIZE_MOD := by
      rw [hmod]; exact h
    have hlt : b + sizeof_Block + size < SIZE_MOD := by
      unfold sizeof_Block MIN_BLOCK_SIZE at *; omega
    obtain ⟨f1, f2, f3, f4, f5, f6⟩ := split_block_fields s b size hc hlt
    have f4b : get_size (split_block s b size).mem (b + sizeof_Block + size) =
        get_size s.mem b - size - sizeof_Block := by
      rw [f4]
      unfold SIZE_MOD sizeof_Block MIN_BLOCK_SIZE at *
      omega
    have hp := split_block_heap s b size hc
    rw [split_target_of_lt b size hlt] at hp
    refine ⟨?_, f2, split_block_is_free_self s b size (split_target_apart_of_lt b size hlt),
      f3, f4b, f5, ?_, hp, fun a ha => ?_⟩
    · rw [f1]; exact Nat.mod_eq_of_lt (by omega)
    · rw [f4b]; unfold sizeof_Block MIN_BLOCK_SIZE at *; omega
    · unfold sizeof_Block MIN_BLOCK_SIZE at *
      exact f6 a (by omega) (by omega) (by omega)
  · intro h
    exact split_block_no_split s b size (by rw [hmod]; omega)

/-- Witness for C16: the block `4096` of a fresh pool of 104 bytes, of size 80,
split for a request of 8 bytes. -/
theorem split_block_spec_witness :
    8 ≤ get_size pool104.mem 4096 ∧ MIN_BLOCK_SIZE ≤ 4096 ∧
    4096 + sizeof_Block + get_size pool104.mem 4096 < SIZE_MOD ∧
    ((8 + sizeof_Block + MIN_BLOCK_SIZE ≤ get_size pool104.mem 4096 →
      get_size (split_block pool104 4096 8).mem 4096 = 8 ∧
      get_next (split_block pool104 4096 8).mem 4096 = 4096 + sizeof_Block + 8 ∧
      get_is_free (split_block pool104 4096 8).mem 4096 = get_is_free pool104.mem 4096 ∧
      get_is_free (split_block pool104 4096 8).mem (4096 + sizeof_Block + 8) = true ∧
      get_size (split_block pool104 4096 8).mem (4096 + sizeof_Block + 8) =
        get_size pool104.mem 4096 - 8 - sizeof_Block ∧
      get_next (split_block pool104 4096 8).mem (4096 + sizeof_Block + 8) =
        get_next pool104.mem 4096 ∧
      8 + sizeof_Block + get_size (split_block pool104 4096 8).mem (4096 + sizeof_Block + 8) =
        get_size pool104.mem 4096 ∧
      (split_block pool104 4096 8).free_heap.Perm
        ((4096 + sizeof_Block + 8) :: pool104.free_heap) ∧
      (∀ a, a < 4096 ∨ 4096 + sizeof_Block + get_size pool104.mem 4096 ≤ a →
        (split_block pool104 4096 8).mem a = pool104.mem a)) ∧
    (get_size pool104.mem 4096 < 8 + sizeof_Block + MIN_BLOCK_SIZE →
      split_block pool104 4096 8 = pool104)) :=
  ⟨by decide, by decide, by decide,
    split_block_spec pool104 4096 8 (by decide) (by decide) (by decide)⟩

/-! ## Growth and the chain -/

theorem find_block_pool (size : Nat) : ∀ (fuel : Nat) (s : State),
    (find_block fuel s size).2.memory_pool = s.memory_pool ∧
      (find_block fuel s size).2.memory_pool_size = s.memory_pool_size := by
  intro fuel
  induction fuel with
  | zero => intro s; exact ⟨rfl, rfl⟩
  | succ fuel ih =>
    intro s
    have hp : (heap_pop s).2.memory_pool = s.memory_pool ∧
        (heap_pop s).2.memory_pool_size = s.memory_pool_size := by
      unfold heap_pop; split <;> exact ⟨rfl, rfl⟩
    simp only [find_block]
    split_ifs with h1 h2
    · exact hp
    · obtain ⟨a, b⟩ := ih (heap_pop s).2
      exact ⟨a.trans hp.1, b.trans hp.2⟩
    · exact ⟨rfl, rfl⟩

theorem find_block_emptied (size : Nat) : ∀ (fuel : Nat) (s : State),
    s.free_heap.length ≤ fuel → (∀ e ∈ s.free_heap, e ≠ 0) →
    (find_block fuel s size).1 = 0 → (find_block fuel s size).2.free_heap = [] := by
  intro fuel
  induction fuel with
  | zero =>
    intro s hl _ _
    exact List.length_eq_zero.mp (Nat.le_zero.mp hl)
  | succ fuel ih =>
    intro s hl hz
    simp only [find_block]
    split_ifs with h1 h2
    · intro h0
      obtain ⟨root, rest, hr⟩ := List.exists_cons_of_length_pos h1
      have hp := heap_pop_cons s root rest hr
      exact absurd (hp.1.symm.trans h0) (hz root (by rw [hr]; exact List.mem_cons_self _ _))
    · intro h0
      obtain ⟨root, rest, hr⟩ := List.exists_cons_of_length_pos h1
      have hp := heap_pop_cons s root rest hr
      have hlen : (heap_pop s).2.free_heap.length ≤ fuel := by
        rw [hp.2.length_eq]; rw [hr] at hl; simpa using hl
      have hz2 : ∀ e ∈ (heap_pop s).2.free_heap, e ≠ 0 := fun x hx =>
        hz x (by rw [hr]; exact List.mem_cons_of_mem _ (hp.2.subset hx))
      exact ih (heap_pop s).2 hlen hz2 h0
    · intro _
      show s.free_heap = []
      exact List.length_eq_zero.mp (by omega)

theorem request_memory_from_os_next (s : State) (size : Nat)
    (h : sbrk s ((size + sizeof_Block) % SIZE_MOD) ≠ none) :
    get_next (request_memory_from_os s size).2.mem s.brk = 0 ∧
      (request_memory_from_os s size).2.memory_pool = s.memory_pool ∧
      (request_memory_from_os s size).2.memory_pool_size = s.memory_pool_size := by
  unfold request_memory_from_os
  cases hs : sbrk s ((size + sizeof_Block) % SIZE_MOD) with
  | none => exact absurd hs h
  | some p =>
    obtain ⟨a, t⟩ := p
    have ht : a = s.brk ∧ t.memory_pool = s.memory_pool ∧
        t.memory_pool_size = s.memory_pool_size := by
      unfold sbrk at hs
      split_ifs at hs with h1 h2 h3
      · cases hs; exact ⟨rfl, rfl, rfl⟩
      · cases hs; exact ⟨rfl, rfl, rfl⟩
    obtain ⟨ha, hp1, hp2⟩ := ht
    subst ha
    refine ⟨?_, hp1, hp2⟩
    simp only []
    rw [get_next_set_next]
    exact Nat.zero_mod _

theorem chain_bytes_congr (m m2 : Mem) (L : List Nat)
    (h : ∀ b ∈ L, ∀ x, b ≤ x → x < b + sizeof_Block → m2 x = m x) :
    chain_bytes m2 L = chain_bytes m L :=
  absorbed_congr m m2 L h

theorem my_malloc_pool (s : State) (n : Nat) :
    (my_malloc s n).2.memory_pool = s.memory_pool ∧
      (my_malloc s n).2.memory_pool_size = s.memory_pool_size := by
  by_cases hn : n = 0
  · subst hn
    have e : my_malloc s 0 = (0, s) := by simp [my_malloc]
    rw [e]; exact ⟨rfl, rfl⟩
  · have hfp := find_block_pool (ALIGN8 n) s.free_heap.length s
    have hreq : ∀ (t : State) (k : Nat),
        (request_memory_from_os t k).2.memory_pool = t.memory_pool ∧
          (request_memory_from_os t k).2.memory_pool_size = t.memory_pool_size := by
      intro t k
      by_cases hs : sbrk t ((k + sizeof_Block) % SIZE_MOD) = none
      · rw [request_memory_from_os_fail t k hs]; exact ⟨rfl, rfl⟩
      · exact (request_memory_from_os_next t k hs).2
    have hch : (chosen_block s n).2.memory_pool = s.memory_pool ∧
        (chosen_block s n).2.memory_pool_size = s.memory_pool_size := by
      unfold chosen_block
      simp only []
      split_ifs
      · exact ⟨(hreq _ _).1.trans hfp.1, (hreq _ _).2.trans hfp.2⟩
      · exact hfp
    have hsp : ∀ (t : State) (b k : Nat),
        (split_block t b k).memory_pool = t.memory_pool ∧
          (split_block t b k).memory_pool_size = t.memory_pool_size := by
      intro t b k
      unfold split_block
      split_ifs <;> exact ⟨rfl, rfl⟩
    rw [my_malloc_of_chosen s n hn]
    split_ifs
    · exact hch
    · exact ⟨(hsp _ _ _).1.trans hch.1, (hsp _ _ _).2.trans hch.2⟩

theorem my_malloc_grow_header (s : State) (n : Nat) (hn : n ≠ 0) (hn2 : n + 32 ≤ 2 ^ 63)
    (hb : s.brk ≠ 0)
    (hf : (find_block s.free_heap.length s (ALIGN8 n)).1 = 0)
    (hs : sbrk s ((ALIGN8 n + sizeof_Block) % SIZE_MOD) ≠ none) :
    get_size (my_malloc s n).2.mem s.brk = ALIGN8 n ∧
      get_is_free (my_malloc s n).2.mem s.brk = false ∧
      get_next (my_malloc s n).2.mem s.brk = 0 := by
  have hfr := find_block_frame (ALIGN8 n) s.free_heap.length s
  have hc := sbrk_none_congr (find_block s.free_heap.length s (ALIGN8 n)).2 s
    ((ALIGN8 n + sizeof_Block) % SIZE_MOD) hfr.2.1 hfr.2.2
  have hsz := ALIGN8_small n hn2
  have hch : chosen_block s n =
      request_memory_from_os (find_block s.free_heap.length s (ALIGN8 n)).2 (ALIGN8 n) := by
    unfold chosen_block
    simp only []
    rw [if_pos hf]
  obtain ⟨r1, _, _, r4, _, _⟩ :=
    request_memory_from_os_ok _ (ALIGN8 n) (fun h => hs (hc.mp h))
  have r7 := (request_memory_from_os_next _ (ALIGN8 n) (fun h => hs (hc.mp h))).1
  rw [hfr.2.1] at r1 r4 r7
  rw [← hch] at r1 r4 r7
  have h0 : (chosen_block s n).1 ≠ 0 := by rw [r1]; exact hb
  have hused := (my_malloc_marks_used s n hn
    (by unfold SIZE_MOD sizeof_Block; omega) h0).2
  rw [r1] at hused
  have hns : ¬ get_size
      ({ (chosen_block s n).2 with
          mem := set_is_free (chosen_block s n).2.mem (chosen_block s n).1 0 } : State).mem
      (chosen_block s n).1 ≥ (ALIGN8 n + sizeof_Block + MIN_BLOCK_SIZE) % SIZE_MOD := by
    show ¬ get_size (set_is_free (chosen_block s n).2.mem (chosen_block s n).1 0)
      (chosen_block s n).1 ≥ (ALIGN8 n + sizeof_Block + MIN_BLOCK_SIZE) % SIZE_MOD
    unfold set_is_free
    rw [get_size_store _ _ _ _ _ (by omega), r1, r4,
      Nat.mod_eq_of_lt (by unfold SIZE_MOD; omega),
      Nat.mod_eq_of_lt (by unfold SIZE_MOD sizeof_Block MIN_BLOCK_SIZE; omega)]
    unfold sizeof_Block MIN_BLOCK_SIZE; omega
  have e := my_malloc_of_chosen s n hn
  rw [if_neg h0, split_block_no_split
    { (chosen_block s n).2 with
      mem := set_is_free (chosen_block s n).2.mem (chosen_block s n).1 0 }
    (chosen_block s n).1 (ALIGN8 n) hns] at e
  refine ⟨?_, hused, ?_⟩
  · rw [e]
    show get_size (memset (set_is_free (chosen_block s n).2.mem (chosen_block s n).1 0)
      ((chosen_block s n).1 + sizeof_Block) 0 (ALIGN8 n)) s.brk = ALIGN8 n
    rw [r1, get_size_memset _ _ _ _ _ (by unfold sizeof_Block; omega)]
    unfold set_is_free
    rw [get_size_store _ _ _ _ _ (by omega), r4]
    exact Nat.mod_eq_of_lt (by unfold SIZE_MOD; omega)
  · rw [e]
    show get_next (memset (set_is_free (chosen_block s n).2.mem (chosen_block s n).1 0)
      ((chosen_block s n).1 + sizeof_Block) 0 (ALIGN8 n)) s.brk = 0
    rw [r1, get_next_memset _ _ _ _ _ (by unfold sizeof_Block; omega)]
    unfold set_is_free
    rw [get_next_store _ _ _ _ _ (by omega), r7]

/-- C14, counterexample: on a fresh pool of 104 bytes the chain `[4096]` covers
`104` bytes, the distance from the pool base to the break. After
`my_malloc(1000)` has grown the pool, the break is `5224` (1128 bytes from the
base) but the `next` of block `4096` is still `NULL`: the chain from the head is
still `[4096]` and covers 104 bytes, and the new block `4200` is not part of
it. -/
theorem growth_not_linked_into_chain :
    pool104.memory_pool = 4096 ∧ pool104.brk = 4096 + 104 ∧
      Linked pool104.mem [4096] 0 ∧ chain_bytes pool104.mem [4096] = 104 ∧
      (my_malloc pool104 1000).1 = 4200 + sizeof_Block ∧
      grown_pool.brk = 4096 + 104 + (1000 + sizeof_Block) ∧
      get_next grown_pool.mem 4096 = 0 ∧
      Linked grown_pool.mem [4096] 0 ∧ chain_bytes grown_pool.mem [4096] = 104 ∧
      ¬ Linked grown_pool.mem [4096, 4200] 0 := by
  decide

/-- C14, amended: let `0 < n ≤ 2 ^ 63 - 32`, and let the break and the index
entries be non-null. When `my_malloc(n)` finds no free block of size at least
`ALIGN8(n)` in the index and `sbrk(ALIGN8(n) + sizeof(Block))` succeeds, the new
block sits at the old break, has size exactly `ALIGN8(n)`, is marked used and has
`next = NULL`; the break rises by `ALIGN8(n) + sizeof(Block)`. A chain `L` ending
in `NULL` whose headers lay below the old break is still linked exactly as before
and ends in `NULL`, covers the same number of bytes and does not contain the new
block; `memory_pool` and `memory_pool_size` are unchanged. -/
theorem my_malloc_growth_block (s : State) (n : Nat) (L : List Nat)
    (hn : n ≠ 0) (hn2 : n + 32 ≤ 2 ^ 63) (hb : s.brk ≠ 0)
    (hz : ∀ e ∈ s.free_heap, e ≠ 0)
    (hnofit : ∀ e ∈ s.free_heap,
      ¬ (get_size s.mem e ≥ ALIGN8 n ∧ get_is_free s.mem e = true))
    (hok : sbrk s ((ALIGN8 n + sizeof_Block) % SIZE_MOD) ≠ none)
    (hL : Linked s.mem L 0) (hLb : ∀ b ∈ L, b + sizeof_Block ≤ s.brk) :
    (my_malloc s n).1 = s.brk + sizeof_Block ∧
    get_size (my_malloc s n).2.mem s.brk = ALIGN8 n ∧
    get_is_free (my_malloc s n).2.mem s.brk = false ∧
    get_next (my_malloc s n).2.mem s.brk = 0 ∧
    (my_malloc s n).2.brk = s.brk + ALIGN8 n + sizeof_Block ∧
    Linked (my_malloc s n).2.mem L 0 ∧
    chain_bytes (my_malloc s n).2.mem L = chain_bytes s.mem L ∧
    s.brk ∉ L ∧
    (my_malloc s n).2.memory_pool = s.memory_pool ∧
    (my_malloc s n).2.memory_pool_size = s.memory_pool_size := by
  have hf : (find_block s.free_heap.length s (ALIGN8 n)).1 = 0 := by
    rcases find_block_found (ALIGN8 n) s.free_heap.length s with h | ⟨hm, h1, h2⟩
    · exact h
    · exact absurd ⟨h1, h2⟩ (hnofit _ hm)
  have he := find_block_emptied (ALIGN8 n) s.free_heap.length s (le_refl _) hz hf
  obtain ⟨g1, _, _, g4⟩ := my_malloc_grow s n hn hn2 hb hf he
  have h0 : (my_malloc s n).1 ≠ 0 := fun h => hok (g1.mp h)
  obtain ⟨p1, p2, p3⟩ := g4 h0
  obtain ⟨q1, q2, q3⟩ := my_malloc_grow_header s n hn hn2 hb hf hok
  have hag : ∀ b ∈ L, ∀ x, b ≤ x → x < b + sizeof_Block →
      (my_malloc s n).2.mem x = s.mem x :=
    fun b hbL x _ h2 => p3 x (by have := hLb b hbL; omega)
  refine ⟨p1, q1, q2, q3, p2, Linked_congr s.mem _ 0 L hag hL,
    chain_bytes_congr s.mem _ L hag, fun hm => ?_, my_malloc_pool s n⟩
  have := hLb _ hm
  unfold sizeof_Block at this
  omega

/-- Witness for C14 amended: the fresh pool of 104 bytes and the request 1000. -/
theorem my_malloc_growth_block_witness :
    1000 ≠ 0 ∧ 1000 + 32 ≤ 2 ^ 63 ∧ pool104.brk ≠ 0 ∧
    (∀ e ∈ pool104.free_heap, e ≠ 0) ∧
    (∀ e ∈ pool104.free_heap,
      ¬ (get_size pool104.mem e ≥ ALIGN8 1000 ∧ get_is_free pool104.mem e = true)) ∧
    sbrk pool104 ((ALIGN8 1000 + sizeof_Block) % SIZE_MOD) ≠ none ∧
    Linked pool104.mem [4096] 0 ∧ (∀ b ∈ [4096], b + sizeof_Block ≤ pool104.brk) ∧
    ((my_malloc pool104 1000).1 = pool104.brk + sizeof_Block ∧
    get_size (my_malloc pool104 1000).2.mem pool104.brk = ALIGN8 1000 ∧
    get_is_free (my_malloc pool104 1000).2.mem pool104.brk = false ∧
    get_next (my_malloc pool104 1000).2.mem pool104.brk = 0 ∧
    (my_malloc pool104 1000).2.brk = pool104.brk + ALIGN8 1000 + sizeof_Block ∧
    Linked (my_malloc pool104 1000).2.mem [4096] 0 ∧
    chain_bytes (my_malloc pool104 1000).2.mem [4096] = chain_bytes pool104.mem [4096] ∧
    pool104.brk ∉ [4096] ∧
    (my_malloc pool104 1000).2.memory_pool = pool104.memory_pool ∧
    (my_malloc pool104 1000).2.memory_pool_size = pool104.memory_pool_size) :=
  ⟨by decide, by decide, by decide, by decide, by decide,
    by simp [sbrk, pool104, init_memory_manager, boot, heap_push, ALIGN8, SIZE_MOD,
      sizeof_Block],
    by decide, by decide,
    my_malloc_growth_block pool104 1000 [4096] (by decide) (by decide) (by decide)
      (by decide) (by decide)
      (by simp [sbrk, pool104, init_memory_manager, boot, heap_push, ALIGN8, SIZE_MOD,
        sizeof_Block])
      (by decide) (by decide)⟩

/-! ## The heap property -/

theorem swap_getD (h : List Nat) (i j x : Nat) (hi : i < h.length) (hj : j < h.length) :
    (swap h i j).getD x 0 =
      if x = j then h.getD i 0 else if x = i then h.getD j 0 else h.getD x 0 := by
  unfold swap
  by_cases hx : x < h.length
  · rw [List.getD_eq_getElem _ _ (by simpa using hx), List.getElem_set, List.getElem_set]
    by_cases h1 : x = j
    · subst h1
      simp
    · by_cases h2 : x = i
      · subst h2
        rw [if_neg (fun e => h1 e.symm), if_neg h1]
        simp
      · rw [if_neg (fun e => h1 e.symm), if_neg (fun e => h2 e.symm), if_neg h1, if_neg h2,
          List.getD_eq_getElem _ _ hx]
  · have e1 : (((h.set i (h.getD j 0)).set j (h.getD i 0)).getD x 0) = 0 := by
      rw [List.getD_eq_default]; simp; omega
    rw [e1, if_neg (by omega), if_neg (by omega), List.getD_eq_default _ _ (by omega)]

theorem IsMinHeap_root_le (m : Mem) (h : List Nat) (hh : IsMinHeap m h) :
    ∀ j, j < h.length → get_size m (h.getD 0 0) ≤ get_size m (h.getD j 0) := by
  intro j
  induction j using Nat.strong_induction_on with
  | _ j ih =>
    intro hj
    by_cases h0 : j = 0
    · subst h0; exact le_refl _
    · have hp := hh j hj (by omega)
      have := ih ((j - 1) / 2) (by omega) (by omega)
      omega

theorem IsMinHeap_root_min (m : Mem) (root : Nat) (rest : List Nat)
    (hh : IsMinHeap m (root :: rest)) :
    ∀ e ∈ root :: rest, get_size m root ≤ get_size m e := by
  intro e he
  obtain ⟨j, hj, rfl⟩ := List.getElem_of_mem he
  have := IsMinHeap_root_le m (root :: rest) hh j hj
  rw [List.getD_eq_getElem _ _ hj] at this
  simpa using this

theorem swap_key (m : Mem) (h : List Nat) (i j x : Nat) (hi : i < h.length)
    (hj : j < h.length) :
    get_size m ((swap h i j).getD x 0) =
      if x = j then get_size m (h.getD i 0)
      else if x = i then get_size m (h.getD j 0) else get_size m (h.getD x 0) := by
  rw [swap_getD h i j x hi hj]
  split_ifs <;> rfl

theorem UpInv_swap (m : Mem) (h : List Nat) (i : Nat) (hi : i < h.length) (h0 : 0 < i)
    (hlt : get_size m (h.getD i 0) < get_size m (h.getD ((i - 1) / 2) 0))
    (hinv : UpInv m h i) : UpInv m (swap h i ((i - 1) / 2)) ((i - 1) / 2) := by
  obtain ⟨inv1, inv2⟩ := hinv
  have hp : (i - 1) / 2 < h.length := by omega
  have hpi : (i - 1) / 2 < i := by omega
  constructor
  · intro j hj hj0 hjp
    rw [swap_length] at hj
    rw [swap_key m h i _ _ hi hp, swap_key m h i _ j hi hp, if_neg hjp]
    by_cases hji : j = i
    · subst hji
      rw [if_pos rfl, if_pos rfl]
      omega
    · rw [if_neg hji]
      by_cases hq : (j - 1) / 2 = (i - 1) / 2
      · rw [if_pos hq]
        have := inv1 j hj hj0 hji
        rw [hq] at this
        omega
      · rw [if_neg hq]
        by_cases hq2 : (j - 1) / 2 = i
        · rw [if_pos hq2]
          exact inv2 j hj hj0 hq2 h0
        · rw [if_neg hq2]
          exact inv1 j hj hj0 hji
  · intro j hj hj0 hjp hp0
    rw [swap_length] at hj
    have hpp : ((i - 1) / 2 - 1) / 2 < (i - 1) / 2 := by omega
    rw [swap_key m h i _ _ hi hp, swap_key m h i _ j hi hp, if_neg (by omega),
      if_neg (by omega), if_neg (by omega)]
    have hpar := inv1 ((i - 1) / 2) hp hp0 (by omega)
    by_cases hji : j = i
    · rw [if_pos hji]
      exact hpar
    · rw [if_neg hji]
      have := inv1 j hj hj0 hji
      rw [hjp] at this
      omega

theorem heapify_up_heap (m : Mem) : ∀ (fuel : Nat) (h : List Nat) (i : Nat),
    i < fuel → i < h.length → UpInv m h i → IsMinHeap m (heapify_up m fuel h i) := by
  intro fuel
  induction fuel with
  | zero => intro h i hf; exact absurd hf (Nat.not_lt_zero _)
  | succ fuel ih =>
    intro h i hf hi hinv
    simp only [heapify_up]
    split_ifs with hc
    · exact ih _ _ (by omega) (by rw [swap_length]; omega)
        (UpInv_swap m h i hi hc.1 hc.2 hinv)
    · intro j hj hj0
      by_cases hji : j = i
      · subst hji
        have : ¬ get_size m (h.getD j 0) < get_size m (h.getD ((j - 1) / 2) 0) :=
          fun hlt => hc ⟨hj0, hlt⟩
        omega
      · exact hinv.1 j hj hj0 hji

/-- C18: on an index with the min-heap property, `heap_push(block)` yields an
index with the min-heap property, one entry longer, whose entries are the
previous entries plus `block`; memory is untouched. -/
theorem heap_push_keeps_heap (s : State) (block : Nat)
    (hh : IsMinHeap s.mem s.free_heap) :
    IsMinHeap (heap_push s block).mem (heap_push s block).free_heap ∧
    (heap_push s block).free_heap.length = s.free_heap.length + 1 ∧
    (heap_push s block).free_heap.Perm (block :: s.free_heap) ∧
    (heap_push s block).mem = s.mem := by
  have hperm := heap_push_perm s block
  refine ⟨?_, by rw [hperm.length_eq]; simp, hperm, rfl⟩
  show IsMinHeap s.mem
    (heapify_up s.mem (s.free_heap ++ [block]).length (s.free_heap ++ [block])
      s.free_heap.length)
  apply heapify_up_heap
  · simp
  · simp
  · constructor
    · intro j hj hj0 hne
      have hj2 : j < s.free_heap.length := by
        simp only [List.length_append, List.length_singleton] at hj; omega
      rw [List.getD_append _ _ _ _ hj2, List.getD_append _ _ _ _ (by omega)]
      exact hh j hj2 hj0
    · intro j hj hj0 hp _
      simp only [List.length_append, List.length_singleton] at hj
      omega

/-- Witness for C18: the index `[4128, 4224, 4160]` of `free_pair` (sizes 8, 16,
8) and the block `4096`. -/
theorem heap_push_keeps_heap_witness :
    IsMinHeap free_pair.mem free_pair.free_heap ∧
    (IsMinHeap (heap_push free_pair 4096).mem (heap_push free_pair 4096).free_heap ∧
    (heap_push free_pair 4096).free_heap.length = free_pair.free_heap.length + 1 ∧
    (heap_push free_pair 4096).free_heap.Perm (4096 :: free_pair.free_heap) ∧
    (heap_push free_pair 4096).mem = free_pair.mem) :=
  ⟨by decide, heap_push_keeps_heap free_pair 4096 (by decide)⟩

theorem DownInv_swap (m : Mem) (h : List Nat) (i c : Nat) (hi : i < h.length)
    (hc : c < h.length) (hpc : (c - 1) / 2 = i) (hc0 : 0 < c)
    (hlt : get_size m (h.getD c 0) < get_size m (h.getD i 0))
    (hmin : ∀ j, j < h.length → 0 < j → (j - 1) / 2 = i →
      get_size m (h.getD c 0) ≤ get_size m (h.getD j 0))
    (hinv : DownInv m h i) : DownInv m (swap h i c) c := by
  obtain ⟨inv1, inv2⟩ := hinv
  have hic : i < c := by omega
  constructor
  · intro j hj hj0 hq
    rw [swap_length] at hj
    rw [swap_key m h i c _ hi hc, swap_key m h i c j hi hc, if_neg hq]
    by_cases hqi : (j - 1) / 2 = i
    · rw [if_pos hqi]
      by_cases hjc : j = c
      · rw [if_pos hjc]; omega
      · rw [if_neg hjc, if_neg (by omega)]
        exact hmin j hj hj0 hqi
    · rw [if_neg hqi, if_neg (by omega)]
      by_cases hji : j = i
      · rw [if_pos hji]
        have := inv2 c hc hc0 hpc (by omega)
        rw [hji]
        exact this
      · rw [if_neg hji]
        exact inv1 j hj hj0 hqi
  · intro j hj hj0 hq _
    rw [swap_length] at hj
    rw [swap_key m h i c _ hi hc, swap_key m h i c j hi hc, if_neg (by omega),
      if_pos hpc, if_neg (by omega), if_neg (by omega)]
    have := inv1 j hj hj0 (by omega)
    rw [hq] at this
    exact this

theorem heapify_down_heap (m : Mem) : ∀ (fuel : Nat) (h : List Nat) (i : Nat),
    h.length ≤ i + fuel → DownInv m h i → IsMinHeap m (heapify_down m fuel h i) := by
  intro fuel
  induction fuel with
  | zero =>
    intro h i hf hinv
    show IsMinHeap m h
    intro j hj hj0
    exact hinv.1 j hj hj0 (by omega)
  | succ fuel ih =>
    intro h i hf hinv
    simp only [heapify_down]
    by_cases hl : 2 * i + 1 < h.length ∧
        get_size m (h.getD (2 * i + 1) 0) < get_size m (h.getD i 0)
    · rw [if_pos hl]
      by_cases hr : 2 * i + 2 < h.length ∧
          get_size m (h.getD (2 * i + 2) 0) < get_size m (h.getD (2 * i + 1) 0)
      · rw [if_pos hr, if_pos (by omega)]
        refine ih _ _ (by rw [swap_length]; omega)
          (DownInv_swap m h i (2 * i + 2) (by omega) hr.1 (by omega) (by omega)
            (by omega) ?_ hinv)
        intro j hj hj0 hq
        have : j = 2 * i + 1 ∨ j = 2 * i + 2 := by omega
        rcases this with e | e
        · rw [e]; omega
        · rw [e]
      · rw [if_neg hr, if_pos (by omega)]
        refine ih _ _ (by rw [swap_length]; omega)
          (DownInv_swap m h i (2 * i + 1) (by omega) hl.1 (by omega) (by omega)
            hl.2 ?_ hinv)
        intro j hj hj0 hq
        have : j = 2 * i + 1 ∨ j = 2 * i + 2 := by omega
        rcases this with e | e
        · rw [e]
        · rw [e]
          rw [e] at hj
          have : ¬ get_size m (h.getD (2 * i + 2) 0) < get_size m (h.getD (2 * i + 1) 0) :=
            fun hlt => hr ⟨hj, hlt⟩
          omega
    · rw [if_neg hl]
      by_cases hr : 2 * i + 2 < h.length ∧
          get_size m (h.getD (2 * i + 2) 0) < get_size m (h.getD i 0)
      · rw [if_pos hr, if_pos (by omega)]
        refine ih _ _ (by rw [swap_length]; omega)
          (DownInv_swap m h i (2 * i + 2) (by omega) hr.1 (by omega) (by omega)
            hr.2 ?_ hinv)
        intro j hj hj0 hq
        have : j = 2 * i + 1 ∨ j = 2 * i + 2 := by omega
        rcases this with e | e
        · rw [e]
          have : ¬ get_size m (h.getD (2 * i + 1) 0) < get_size m (h.getD i 0) :=
            fun hlt => hl ⟨by omega, hlt⟩
          omega
        · rw [e]
      · rw [if_neg hr, if_neg (by simp)]
        intro j hj hj0
        by_cases hq : (j - 1) / 2 = i
        · have : j = 2 * i + 1 ∨ j = 2 * i + 2 := by omega
          rw [hq]
          rcases this with e | e
          · rw [e]
            rw [e] at hj
            have : ¬ get_size m (h.getD (2 * i + 1) 0) < get_size m (h.getD i 0) :=
              fun hlt => hl ⟨hj, hlt⟩
            omega
          · rw [e]
            rw [e] at hj
            have : ¬ get_size m (h.getD (2 * i + 2) 0) < get_size m (h.getD i 0) :=
              fun hlt => hr ⟨hj, hlt⟩
            omega
        · exact hinv.1 j hj hj0 hq

theorem heap_pop_nil (s : State) (h : s.free_heap = []) : heap_pop s = (0, s) := by
  unfold heap_pop
  rw [h]

theorem heap_pop_heap (s : State) (root : Nat) (rest : List Nat)
    (hr : s.free_heap = root :: rest) (hh : IsMinHeap s.mem s.free_heap) :
    IsMinHeap s.mem (heap_pop s).2.free_heap := by
  unfold heap_pop
  rw [hr]
  simp only []
  apply heapify_down_heap
  · omega
  · rw [hr] at hh
    constructor
    · intro j hj hj0 hq
      have hlen : j < (root :: rest).dropLast.length := by simpa using hj
      have hlen2 : j + 1 < (root :: rest).length := by
        rw [List.length_dropLast] at hlen; omega
      have e : ∀ x, 0 < x → x ≤ j →
          (((root :: rest).dropLast).set 0 ((root :: rest).getLast?.getD 0)).getD x 0 =
            (root :: rest).getD x 0 := by
        intro x hx0 hxj
        have hx1 : x < (root :: rest).dropLast.length := by omega
        rw [List.getD_eq_getElem _ _ (by simpa using hx1),
          List.getElem_set_ne (by omega), List.getElem_dropLast,
          List.getD_eq_getElem _ _ (by omega)]
      rw [e j hj0 (le_refl _), e ((j - 1) / 2) (by omega) (by omega)]
      exact hh j (by omega) hj0
    · intro j _ _ _ h0
      exact absurd h0 (Nat.lt_irrefl 0)

/-- C17: on an index with the min-heap property, `heap_pop` of an empty index
returns `NULL` and the same state; otherwise it returns an entry whose size is
at most the size of every entry, and leaves an index with the min-heap property
that holds the previous entries without that one (one entry fewer); memory is
untouched. -/
theorem heap_pop_removes_min (s : State) (hh : IsMinHeap s.mem s.free_heap) :
    (s.free_heap = [] → heap_pop s = (0, s)) ∧
    (s.free_heap ≠ [] →
      (heap_pop s).1 ∈ s.free_heap ∧
      (∀ e ∈ s.free_heap, get_size s.mem (heap_pop s).1 ≤ get_size s.mem e) ∧
      IsMinHeap (heap_pop s).2.mem (heap_pop s).2.free_heap ∧
      ((heap_pop s).1 :: (heap_pop s).2.free_heap).Perm s.free_heap ∧
      (heap_pop s).2.free_heap.length + 1 = s.free_heap.length ∧
      (heap_pop s).2.mem = s.mem) := by
  refine ⟨heap_pop_nil s, fun hne => ?_⟩
  obtain ⟨root, rest, hr⟩ := List.exists_cons_of_ne_nil hne
  obtain ⟨p1, p2⟩ := heap_pop_cons s root rest hr
  have hmin : ∀ e ∈ s.free_heap, get_size s.mem root ≤ get_size s.mem e := by
    rw [hr] at hh ⊢
    exact IsMinHeap_root_min s.mem root rest hh
  refine ⟨?_, ?_, ?_, ?_, ?_, heap_pop_mem s⟩
  · rw [p1, hr]; exact List.mem_cons_self _ _
  · rw [p1]; exact hmin
  · rw [heap_pop_mem]; exact heap_pop_heap s root rest hr hh
  · rw [p1, hr]; exact List.Perm.cons _ p2
  · rw [p2.length_eq, hr]; rfl

/-- Witness for C17: the index `[4128, 4224, 4160]` of `free_pair`. -/
theorem heap_pop_removes_min_witness :
    IsMinHeap free_pair.mem free_pair.free_heap ∧
    ((free_pair.free_heap = [] → heap_pop free_pair = (0, free_pair)) ∧
    (free_pair.free_heap ≠ [] →
      (heap_pop free_pair).1 ∈ free_pair.free_heap ∧
      (∀ e ∈ free_pair.free_heap,
        get_size free_pair.mem (heap_pop free_pair).1 ≤ get_size free_pair.mem e) ∧
      IsMinHeap (heap_pop free_pair).2.mem (heap_pop free_pair).2.free_heap ∧
      ((heap_pop free_pair).1 :: (heap_pop free_pair).2.free_heap).Perm
        free_pair.free_heap ∧
      (heap_pop free_pair).2.free_heap.length + 1 = free_pair.free_heap.length ∧
      (heap_pop free_pair).2.mem = free_pair.mem)) :=
  ⟨by decide, heap_pop_removes_min free_pair (by decide)⟩

/-! ## The candidate search on a heap of free blocks -/

theorem find_block_partition (size : Nat) : ∀ (fuel : Nat) (s : State),
    s.free_heap.length ≤ fuel → IsMinHeap s.mem s.free_heap →
    (∀ e ∈ s.free_heap, get_is_free s.mem e = true) → (∀ e ∈ s.free_heap, e ≠ 0) →
    IsMinHeap s.mem (find_block fuel s size).2.free_heap ∧
    (((find_block fuel s size).1 ≠ 0 ∧
        ((find_block fuel s size).1 :: (find_block fuel s size).2.free_heap).Perm
          (s.free_heap.filter fun e => decide (size ≤ get_size s.mem e)) ∧
        ∀ e ∈ s.free_heap, size ≤ get_size s.mem e →
          get_size s.mem (find_block fuel s size).1 ≤ get_size s.mem e) ∨
      ((find_block fuel s size).1 = 0 ∧ (find_block fuel s size).2.free_heap = [] ∧
        (s.free_heap.filter fun e => decide (size ≤ get_size s.mem e)) = [])) := by
  intro fuel
  induction fuel with
  | zero =>
    intro s hl hh _ _
    have e : s.free_heap = [] := List.length_eq_zero.mp (Nat.le_zero.mp hl)
    refine ⟨hh, Or.inr ⟨rfl, e, ?_⟩⟩
    rw [e]; rfl
  | succ fuel ih =>
    intro s hl hh hfree hz
    simp only [find_block]
    by_cases h1 : 0 < s.free_heap.length
    · rw [if_pos h1]
      obtain ⟨root, rest, hr⟩ := List.exists_cons_of_length_pos h1
      obtain ⟨p1, p2⟩ := heap_pop_cons s root rest hr
      have hpm := heap_pop_mem s
      have hheap := heap_pop_heap s root rest hr hh
      have hmin : ∀ e ∈ s.free_heap, get_size s.mem root ≤ get_size s.mem e := by
        rw [hr] at hh ⊢
        exact IsMinHeap_root_min s.mem root rest hh
      have hrootmem : root ∈ s.free_heap := by rw [hr]; exact List.mem_cons_self _ _
      by_cases h2 : get_size (heap_pop s).2.mem (heap_pop s).1 ≥ size ∧
          get_is_free (heap_pop s).2.mem (heap_pop s).1 = true
      · rw [if_pos h2]
        rw [hpm, p1] at h2
        refine ⟨hheap, Or.inl ⟨by rw [p1]; exact hz root hrootmem, ?_, ?_⟩⟩
        · have hall : (s.free_heap.filter fun e => decide (size ≤ get_size s.mem e))
              = s.free_heap := by
            rw [List.filter_eq_self]
            intro e he
            have := hmin e he
            simp only [decide_eq_true_eq]
            omega
          rw [hall, p1, hr]
          exact List.Perm.cons _ p2
        · intro e he _
          rw [p1]; exact hmin e he
      · rw [if_neg h2]
        rw [hpm, p1] at h2
        have hsmall : get_size s.mem root < size := by
          by_contra hc
          exact h2 ⟨by omega, hfree root hrootmem⟩
        have hsub : ∀ e ∈ (heap_pop s).2.free_heap, e ∈ s.free_heap := fun e he => by
          rw [hr]; exact List.mem_cons_of_mem _ (p2.subset he)
        obtain ⟨i1, i2⟩ := ih (heap_pop s).2
          (by rw [p2.length_eq]; rw [hr] at hl; simpa using hl)
          (by rw [hpm]; exact hheap)
          (fun e he => by rw [hpm]; exact hfree e (hsub e he))
          (fun e he => hz e (hsub e he))
        rw [hpm] at i1 i2
        have hfilt : (s.free_heap.filter fun e => decide (size ≤ get_size s.mem e)).Perm
            ((heap_pop s).2.free_heap.filter fun e => decide (size ≤ get_size s.mem e)) := by
          rw [hr, List.filter_cons_of_neg (by simp only [decide_eq_true_eq]; omega)]
          exact (p2.filter _).symm
        refine ⟨i1, ?_⟩
        rcases i2 with ⟨a1, a2, a3⟩ | ⟨b1, b2, b3⟩
        · refine Or.inl ⟨a1, a2.trans hfilt.symm, fun e he hse => ?_⟩
          rw [hr] at he
          rcases List.mem_cons.mp he with h | h
          · rw [h] at hse; omega
          · exact a3 e (p2.symm.subset h) hse
        · refine Or.inr ⟨b1, b2, ?_⟩
          have := hfilt.length_eq
          rw [b3] at this
          exact List.length_eq_zero.mp this
    · rw [if_neg h1]
      have e : s.free_heap = [] := List.length_eq_zero.mp (by omega)
      refine ⟨hh, Or.inr ⟨rfl, e, ?_⟩⟩
      rw [e]; rfl

/-- C20: on an index with the min-heap property whose entries are non-null and
all marked free, if some entry has size at least `ALIGN8(n)` then `my_malloc(n)`
returns the payload of an indexed block whose size is the least among the
indexed blocks of size at least `ALIGN8(n)`, and the break does not move. -/
theorem my_malloc_best_fit (s : State) (n : Nat) (hn : n ≠ 0)
    (hh : IsMinHeap s.mem s.free_heap)
    (hfree : ∀ e ∈ s.free_heap, get_is_free s.mem e = true)
    (hz : ∀ e ∈ s.free_heap, e ≠ 0)
    (hfit : ∃ e ∈ s.free_heap, ALIGN8 n ≤ get_size s.mem e) :
    ∃ c ∈ s.free_heap, ALIGN8 n ≤ get_size s.mem c ∧
      (∀ e ∈ s.free_heap, ALIGN8 n ≤ get_size s.mem e →
        get_size s.mem c ≤ get_size s.mem e) ∧
      (my_malloc s n).1 = c + sizeof_Block ∧ (my_malloc s n).2.brk = s.brk := by
  obtain ⟨_, hp⟩ := find_block_partition (ALIGN8 n) s.free_heap.length s (le_refl _)
    hh hfree hz
  rcases hp with ⟨a1, a2, a3⟩ | ⟨_, _, b3⟩
  · have hmem : (find_block s.free_heap.length s (ALIGN8 n)).1 ∈
        s.free_heap.filter fun e => decide (ALIGN8 n ≤ get_size s.mem e) :=
      a2.subset (List.mem_cons_self _ _)
    rw [List.mem_filter] at hmem
    refine ⟨_, hmem.1, by simpa using hmem.2, a3, ?_⟩
    rw [my_malloc_served_eq s n _ hn rfl a1]
    refine ⟨rfl, ?_⟩
    show (split_block _ _ _).brk = s.brk
    rw [(split_block_brk _ _ _).1]
    exact (find_block_frame (ALIGN8 n) s.free_heap.length s).2.1
  · obtain ⟨e, he, hse⟩ := hfit
    have : e ∈ s.free_heap.filter fun e => decide (ALIGN8 n ≤ get_size s.mem e) := by
      rw [List.mem_filter]; exact ⟨he, by simpa using hse⟩
    rw [b3] at this
    exact absurd this (List.not_mem_nil e)

/-- Witness for C20: the index `[4128, 4224, 4160]` of `free_pair` (sizes 8, 16,
8) and the request `12`, rounded to 16. -/
theorem my_malloc_best_fit_witness :
    12 ≠ 0 ∧ IsMinHeap free_pair.mem free_pair.free_heap ∧
    (∀ e ∈ free_pair.free_heap, get_is_free free_pair.mem e = true) ∧
    (∀ e ∈ free_pair.free_heap, e ≠ 0) ∧
    (∃ e ∈ free_pair.free_heap, ALIGN8 12 ≤ get_size free_pair.mem e) ∧
    (∃ c ∈ free_pair.free_heap, ALIGN8 12 ≤ get_size free_pair.mem c ∧
      (∀ e ∈ free_pair.free_heap, ALIGN8 12 ≤ get_size free_pair.mem e →
        get_size free_pair.mem c ≤ get_size free_pair.mem e) ∧
      (my_malloc free_pair 12).1 = c + sizeof_Block ∧
      (my_malloc free_pair 12).2.brk = free_pair.brk) :=
  ⟨by decide, by decide, by decide, by decide, by decide,
    my_malloc_best_fit free_pair 12 (by decide) (by decide) (by decide) (by decide)
      (by decide)⟩

/-- C19, counterexample: `used_entry_run` returns the addresses 4120, 4192, 4120,
4192, and in its final state `used_entry_state` the index `[4168, 4200]` has the
min-heap property (sizes 8 and 40) and block `4168` is marked used. For the
request 8 the search pops `4168`, whose size 8 is not below the request, drops it
because it is not free, and selects `4200`: the index is empty after the call,
not `[4168]`. -/
theorem search_drops_used_entry :
    used_entry_run.1 = [4120, 4192, 4120, 4192] ∧
      used_entry_state.free_heap = [4168, 4200] ∧
      IsMinHeap used_entry_state.mem used_entry_state.free_heap ∧
      get_size used_entry_state.mem 4168 = 8 ∧
      get_is_free used_entry_state.mem 4168 = false ∧
      get_size used_entry_state.mem 4200 = 40 ∧
      get_is_free used_entry_state.mem 4200 = true ∧
      ALIGN8 8 = 8 ∧
      (find_block used_entry_state.free_heap.length used_entry_state (ALIGN8 8)).1 = 4200 ∧
      (my_malloc used_entry_state 8).1 = 4200 + sizeof_Block ∧
      (my_malloc used_entry_state 8).2.free_heap = [] := by
  decide

/-- C19, amended: on an index with the min-heap property whose entries are
non-null and all marked free, the candidate search for `ALIGN8(n)` leaves memory
untouched. If it finds nothing, no entry has size at least `ALIGN8(n)` and the
index is empty when growth is requested. If it selects `c`, then `c` together
with the entries left by the search are exactly the previous entries of size at
least `ALIGN8(n)`; after `my_malloc` the index holds those entries without `c`,
plus the remainder `c + sizeof(Block) + ALIGN8(n)` (a pointer, so taken modulo
`2 ^ 64`) when `split_block` splits. -/
theorem candidate_search_discards (s : State) (n : Nat) (hn : n ≠ 0)
    (hh : IsMinHeap s.mem s.free_heap)
    (hfree : ∀ e ∈ s.free_heap, get_is_free s.mem e = true)
    (hz : ∀ e ∈ s.free_heap, e ≠ 0) :
    (find_block s.free_heap.length s (ALIGN8 n)).2.mem = s.mem ∧
    ((find_block s.free_heap.length s (ALIGN8 n)).1 = 0 →
      (find_block s.free_heap.length s (ALIGN8 n)).2.free_heap = [] ∧
      ∀ e ∈ s.free_heap, get_size s.mem e < ALIGN8 n) ∧
    ((find_block s.free_heap.length s (ALIGN8 n)).1 ≠ 0 →
      ((find_block s.free_heap.length s (ALIGN8 n)).1 ::
          (find_block s.free_heap.length s (ALIGN8 n)).2.free_heap).Perm
        (s.free_heap.filter fun e => decide (ALIGN8 n ≤ get_size s.mem e)) ∧
      (¬ get_size s.mem (find_block s.free_heap.length s (ALIGN8 n)).1 ≥
          (ALIGN8 n + sizeof_Block + MIN_BLOCK_SIZE) % SIZE_MOD →
        ((find_block s.free_heap.length s (ALIGN8 n)).1 ::
            (my_malloc s n).2.free_heap).Perm
          (s.free_heap.filter fun e => decide (ALIGN8 n ≤ get_size s.mem e))) ∧
      (get_size s.mem (find_block s.free_heap.length s (ALIGN8 n)).1 ≥
          (ALIGN8 n + sizeof_Block + MIN_BLOCK_SIZE) % SIZE_MOD →
        ((find_block s.free_heap.length s (ALIGN8 n)).1 ::
            (my_malloc s n).2.free_heap).Perm
          ((((find_block s.free_heap.length s (ALIGN8 n)).1 + sizeof_Block + ALIGN8 n)
              % SIZE_MOD) ::
            s.free_heap.filter fun e => decide (ALIGN8 n ≤ get_size s.mem e)))) := by
  obtain ⟨_, hp⟩ := find_block_partition (ALIGN8 n) s.free_heap.length s (le_refl _)
    hh hfree hz
  have hfr := find_block_frame (ALIGN8 n) s.free_heap.length s
  refine ⟨hfr.1, fun h0 => ?_, fun h0 => ?_⟩
  · rcases hp with ⟨a1, _, _⟩ | ⟨_, b2, b3⟩
    · exact absurd h0 a1
    · refine ⟨b2, fun e he => ?_⟩
      by_contra hc
      have : e ∈ s.free_heap.filter fun e => decide (ALIGN8 n ≤ get_size s.mem e) := by
        rw [List.mem_filter]; exact ⟨he, by simp only [decide_eq_true_eq]; omega⟩
      rw [b3] at this
      exact absurd this (List.not_mem_nil e)
  · rcases hp with ⟨_, a2, _⟩ | ⟨b1, _, _⟩
    · have hS : get_size
          ({ (find_block s.free_heap.length s (ALIGN8 n)).2 with
              mem := set_is_free s.mem (find_block s.free_heap.length s (ALIGN8 n)).1 0 }
            : State).mem (find_block s.free_heap.length s (ALIGN8 n)).1 =
          get_size s.mem (find_block s.free_heap.length s (ALIGN8 n)).1 := by
        show get_size (set_is_free s.mem _ 0) _ = _
        unfold set_is_free
        exact get_size_store _ _ _ _ _ (by omega)
      have heq := my_malloc_served_eq s n _ hn rfl h0
      refine ⟨a2, fun hc => ?_, fun hc => ?_⟩
      · rw [heq]
        show (_ :: (split_block _ _ _).free_heap).Perm _
        rw [split_block_no_split _ _ _ (by rw [hS]; exact hc)]
        exact a2
      · rw [heq]
        show (_ :: (split_block _ _ _).free_heap).Perm _
        have hsp := split_block_heap
          { (find_block s.free_heap.length s (ALIGN8 n)).2 with
            mem := set_is_free s.mem (find_block s.free_heap.length s (ALIGN8 n)).1 0 }
          (find_block s.free_heap.length s (ALIGN8 n)).1 (ALIGN8 n) (by rw [hS]; exact hc)
        exact ((List.Perm.cons _ hsp).trans (List.Perm.swap _ _ _)).trans
          (List.Perm.cons _ a2)
    · exact absurd b1 h0

/-- Witness for C19 amended: the index `[4128, 4224, 4160]` of `free_pair` and
the request `12`. -/
theorem candidate_search_discards_witness :
    12 ≠ 0 ∧ IsMinHeap free_pair.mem free_pair.free_heap ∧
    (∀ e ∈ free_pair.free_heap, get_is_free free_pair.mem e = true) ∧
    (∀ e ∈ free_pair.free_heap, e ≠ 0) ∧
    ((find_block free_pair.free_heap.length free_pair (ALIGN8 12)).2.mem = free_pair.mem ∧
    ((find_block free_pair.free_heap.length free_pair (ALIGN8 12)).1 = 0 →
      (find_block free_pair.free_heap.length free_pair (ALIGN8 12)).2.free_heap = [] ∧
      ∀ e ∈ free_pair.free_heap, get_size free_pair.mem e < ALIGN8 12) ∧
    ((find_block free_pair.free_heap.length free_pair (ALIGN8 12)).1 ≠ 0 →
      ((find_block free_pair.free_heap.length free_pair (ALIGN8 12)).1 ::
          (find_block free_pair.free_heap.length free_pair (ALIGN8 12)).2.free_heap).Perm
        (free_pair.free_heap.filter fun e => decide (ALIGN8 12 ≤ get_size free_pair.mem e)) ∧
      (¬ get_size free_pair.mem
            (find_block free_pair.free_heap.length free_pair (ALIGN8 12)).1 ≥
          (ALIGN8 12 + sizeof_Block + MIN_BLOCK_SIZE) % SIZE_MOD →
        ((find_block free_pair.free_heap.length free_pair (ALIGN8 12)).1 ::
            (my_malloc free_pair 12).2.free_heap).Perm
          (free_pair.free_heap.filter fun e =>
            decide (ALIGN8 12 ≤ get_size free_pair.mem e))) ∧
      (get_size free_pair.mem
            (find_block free_pair.free_heap.length free_pair (ALIGN8 12)).1 ≥
          (ALIGN8 12 + sizeof_Block + MIN_BLOCK_SIZE) % SIZE_MOD →
        ((find_block free_pair.free_heap.length free_pair (ALIGN8 12)).1 ::
            (my_malloc free_pair 12).2.free_heap).Perm
          ((((find_block free_pair.free_heap.length free_pair (ALIGN8 12)).1
              + sizeof_Block + ALIGN8 12) % SIZE_MOD) ::
            free_pair.free_heap.filter fun e =>
              decide (ALIGN8 12 ≤ get_size free_pair.mem e))))) :=
  ⟨by decide, by decide, by decide, by decide,
    candidate_search_discards free_pair 12 (by decide) (by decide) (by decide)
      (by decide)⟩

/-! ## Adjacency along the chain -/

/-- C15, evaluated on the code: `broken_link_run` returns the addresses 4120,
4152, 4192, 4152. In its final state the chain from the pool base is
`4096 -> 4128 -> 4160`, and block `4160` (size 80) has the next link `1`, which
is neither `NULL` nor `4160 + sizeof(Block) + 80`. -/
theorem broken_link_run_breaks_adjacency :
    broken_link_run.1 = [4120, 4152, 4192, 4152] ∧
      broken_link_run.2.memory_pool = 4096 ∧
      get_next broken_link_run.2.mem 4096 = 4128 ∧
      get_next broken_link_run.2.mem 4128 = 4160 ∧
      get_size broken_link_run.2.mem 4160 = 80 ∧
      get_next broken_link_run.2.mem 4160 = 1 ∧
      get_next broken_link_run.2.mem 4160 ≠ 0 ∧
      get_next broken_link_run.2.mem 4160 ≠
        4160 + sizeof_Block + get_size broken_link_run.2.mem 4160 := by
  decide

/-! ## A request whose size plus header wraps -/

/-- C3, evaluated on the code: on a fresh pool of 104 bytes the request
`2 ^ 64 - 24` is its own rounding, no index entry fits it, and the growth request
`ALIGN8(n) + sizeof(Block)` wraps to `sbrk(0)`, which succeeds without moving the
break `4200`, so the block `my_malloc` settles on is the non-null `4200`.
`my_malloc` then returns the non-null address `4224` although no memory was
obtained; `split_block` computes `new_block = 4200`, the block itself, so the
returned block `4224 - sizeof(Block)` is marked free, is its own `next`, and is
the one entry of the index. -/
theorem my_malloc_wrapped_growth_returns_free_block :
    ALIGN8 (2 ^ 64 - 24) = 2 ^ 64 - 24 ∧
      (ALIGN8 (2 ^ 64 - 24) + sizeof_Block) % SIZE_MOD = 0 ∧
      (∀ e ∈ pool104.free_heap,
        ¬ (get_size pool104.mem e ≥ ALIGN8 (2 ^ 64 - 24) ∧
          get_is_free pool104.mem e = true)) ∧
      pool104.brk = 4200 ∧
      (sbrk pool104 ((ALIGN8 (2 ^ 64 - 24) + sizeof_Block) % SIZE_MOD)).map Prod.fst
        = some 4200 ∧
      (chosen_block pool104 (2 ^ 64 - 24)).1 = 4200 ∧
      (chosen_block pool104 (2 ^ 64 - 24)).2.brk = 4200 ∧
      (my_malloc pool104 (2 ^ 64 - 24)).1 = 4224 ∧
      (my_malloc pool104 (2 ^ 64 - 24)).2.brk = 4200 ∧
      4224 - sizeof_Block = 4200 ∧
      get_is_free (my_malloc pool104 (2 ^ 64 - 24)).2.mem 4200 = true ∧
      get_next (my_malloc pool104 (2 ^ 64 - 24)).2.mem 4200 = 4200 ∧
      (my_malloc pool104 (2 ^ 64 - 24)).2.free_heap = [4200] := by
  decide

end MyMalloc
